import Mathlib

/-!
Verification development for the aig-cube repository: a Cube-and-Conquer SAT
solver operating natively on And-Inverter Graphs (AIGs).

The definitions below are a shallow embedding of the Python sources:
* `src/aig_cube/cnf.py` (`Cnf`, `tseytin_transformation`),
* `src/aig_cube/circuit_instance.py` (`CircuitSatInstance`),
* `src/aig_cube/remove_constant_gates.py` (`RemoveConstantGates._transform`),
* `src/aig_cube/solver.py` (`CubeAndConquerSolver`),
* `src/scripts/solve_external.py` (the conquer dispatcher loop).

The cirbo `Circuit` container is an external dependency of the repository; its
operations are modelled from the spec (section 4.1), which documents the
interface the core consumes.  Fallible Python code (exceptions such as
`KeyError`, `IndexError`, `ValueError`, failed `assert`s) is modelled with
`Option`: `none` is an uncaught exception.  Recursion is modelled with
explicit fuel where the Python recursion is unbounded.
-/

set_option maxHeartbeats 4000000
set_option maxRecDepth 10000

namespace AigCube

/-- Gate labels are strings, as in the Python sources. -/
abbrev Label := String

/-- The five gate types of the AIG data model (spec section 3). -/
inductive GateType where
  | INPUT
  | AND
  | NOT
  | ALWAYS_TRUE
  | ALWAYS_FALSE
deriving DecidableEq, Repr

open GateType

/-- Immutable gate record: label, type, ordered operand list (spec section 3). -/
structure Gate where
  label : Label
  gate_type : GateType
  operands : List Label
deriving DecidableEq, Repr

/-- The semantic operator of a gate applied to boolean operand values
(`g.operator(*args)` in cirbo, modelled from the spec: NOT(x)=¬x, AND(a,b)=a∧b,
constants take no arguments).  A wrong arity is an exception (`none`). -/
def applyOperator : GateType → List Bool → Option Bool
  | GateType.AND, [a, b] => some (a && b)
  | GateType.NOT, [a] => some (!a)
  | GateType.ALWAYS_TRUE, [] => some true
  | GateType.ALWAYS_FALSE, [] => some false
  | _, _ => none

/-- `gate.operator()` for a constant gate. -/
def constValue : GateType → Option Bool
  | GateType.ALWAYS_TRUE => some true
  | GateType.ALWAYS_FALSE => some false
  | _ => none

/-- Association-list lookup (Python `dict.get` on an insertion-ordered dict). -/
def lookupA {α : Type} (xs : List (Label × α)) (l : Label) : Option α :=
  (xs.find? (fun p => p.1 == l)).map (·.2)

/-- Update an existing key of an insertion-ordered dict in place
(Python `d[k] = v` for a key already present keeps the key's position). -/
def updateA {α : Type} (xs : List (Label × α)) (l : Label) (v : α) :
    List (Label × α) :=
  xs.map (fun p => if p.1 == l then (l, v) else p)

/-- Modelled from the spec: the cirbo `Circuit` container (spec section 3 and
4.1) — gates keyed by label with insertion order preserved, ordered input and
output lists, and the reverse user index. -/
structure Circuit where
  gates : List (Label × Gate)
  inputs : List Label
  outputs : List Label
  users : List (Label × List Label)
deriving DecidableEq, Repr

namespace Circuit

/-- `circuit.get_gate(label)`; a missing label is a `KeyError` (`none`). -/
def get_gate (c : Circuit) (l : Label) : Option Gate :=
  lookupA c.gates l

/-- `circuit.get_gate_users(label)`. -/
def get_gate_users (c : Circuit) (l : Label) : List Label :=
  (lookupA c.users l).getD []

/-- `circuit.size` — the number of gates. -/
def size (c : Circuit) : Nat := c.gates.length

/-- `circuit.input_size`. -/
def input_size (c : Circuit) : Nat := c.inputs.length

/-- `circuit.output_size`. -/
def output_size (c : Circuit) : Nat := c.outputs.length

/-- Record `user` as a user of `op` in the reverse index. -/
def addUser (users : List (Label × List Label)) (op user : Label) :
    List (Label × List Label) :=
  if (lookupA users op).isSome then
    updateA users op (((lookupA users op).getD []) ++ [user])
  else
    users ++ [(op, [user])]

/-- Modelled from the spec: `emplace_gate(label, type, operands)` inserts a
gate at the end of the gate table and maintains the reverse user index. -/
def emplace_gate (c : Circuit) (l : Label) (t : GateType) (ops : List Label) :
    Circuit :=
  { c with
    gates := c.gates ++ [(l, ⟨l, t, ops⟩)]
    users := (ops.foldl (fun us op => addUser us op l) c.users) ++ [(l, [])] }

/-- Modelled from the spec: `replace_inputs(true_labels, false_labels)` replaces
the named INPUT gates with constants, removes them from `inputs`, and preserves
user edges. -/
def replace_inputs (c : Circuit) (ts fs : List Label) : Circuit :=
  { c with
    gates := c.gates.map (fun p =>
      if p.1 ∈ ts then (p.1, ⟨p.1, GateType.ALWAYS_TRUE, []⟩)
      else if p.1 ∈ fs then (p.1, ⟨p.1, GateType.ALWAYS_FALSE, []⟩)
      else p)
    inputs := c.inputs.filter (fun l => !(decide (l ∈ ts) || decide (l ∈ fs))) }

/-- `circuit._remove_user(gate_label, user)` — sever one user edge in the
reverse index (spec section 4.1). -/
def remove_user (c : Circuit) (gate_label user : Label) : Circuit :=
  { c with
    users := updateA c.users gate_label
      (((lookupA c.users gate_label).getD []).erase user) }

/-- `circuit._gates[label] = gate` — in-place replacement of an existing gate,
keeping its position in the table. -/
def set_gate (c : Circuit) (l : Label) (g : Gate) : Circuit :=
  { c with gates := updateA c.gates l g }

/-- Modelled from the spec: `top_sort(inverse=True)` yields the gates from
inputs/constants toward outputs.  Because `add_gate` requires every operand to
be already defined, the insertion order of the gate table is such an order, and
it is the one this model returns. -/
def top_sort_inv (c : Circuit) : List Gate :=
  c.gates.map (·.2)

/-- `circuit.set_inputs(labels)`. -/
def set_inputs (c : Circuit) (ls : List Label) : Circuit :=
  { c with inputs := ls }

/-- `circuit.set_outputs(labels)`. -/
def set_outputs (c : Circuit) (ls : List Label) : Circuit :=
  { c with outputs := ls }

/-- The empty circuit, `Circuit()`. -/
def empty : Circuit := ⟨[], [], [], []⟩

end Circuit

/-- Well-formedness of an AIG circuit (spec section 3, "Invariants"): gate
labels are unique and match their table keys, every operand refers to a
previously inserted gate (so the graph is acyclic and insertion order is
topological), arities fit the gate type, `inputs` lists INPUT gates, and
`outputs` refer to existing labels.  Executable so that concrete witnesses can
be checked by `decide`. -/
def arityOK (g : Gate) : Bool :=
  match g.gate_type with
  | GateType.INPUT => g.operands.isEmpty
  | GateType.ALWAYS_TRUE => g.operands.isEmpty
  | GateType.ALWAYS_FALSE => g.operands.isEmpty
  | GateType.NOT => g.operands.length == 1
  | GateType.AND => g.operands.length == 2

/-- Gate-table well-formedness relative to the set of already seen labels. -/
def wfGates : List Label → List (Label × Gate) → Bool
  | _, [] => true
  | seen, (l, g) :: rest =>
    !(seen.contains l) && (g.label == l) && arityOK g &&
      g.operands.all (fun op => seen.contains op) &&
      wfGates (l :: seen) rest

/-- Executable well-formedness check for a circuit. -/
def WFb (c : Circuit) : Bool :=
  wfGates [] c.gates &&
    c.inputs.all (fun l =>
      match c.get_gate l with
      | some g => g.gate_type == GateType.INPUT
      | none => false) &&
    c.outputs.all (fun l => (c.get_gate l).isSome)

/-- Well-formed AIG circuit. -/
def WF (c : Circuit) : Prop := WFb c = true

/-! ## CNF and the Tseytin encoder (`src/aig_cube/cnf.py`) -/

/-- A literal is a signed nonzero integer. -/
abbrev Lit := Int

/-- A clause is a list of literals. -/
abbrev Clause := List Lit

/-- `Cnf`: a clause list together with the gate-label-to-variable map. -/
structure Cnf where
  cnf : List Clause
  var_map : List (Label × Lit)
deriving DecidableEq, Repr

/-- `Cnf.add_clause`. -/
def Cnf.add_clause (f : Cnf) (c : Clause) : Cnf :=
  { f with cnf := f.cnf ++ [c] }

/-- `Cnf.get_var(label)`. -/
def Cnf.get_var (f : Cnf) (l : Label) : Option Lit :=
  lookupA f.var_map l

/-- The mutable state of `tseytin_transformation`: the `saved_lits`
defaultdict (insertion-ordered), the `next_lit` counter, and the clause list
being built. -/
structure TState where
  saved : List (Label × Lit)
  next : Lit
  cnf : List Clause
deriving DecidableEq, Repr

/-- Access `saved_lits[label]` on the `defaultdict(_new_lit)`: return the
stored literal, or allocate the next fresh one on first access. -/
def getOrNew (st : TState) (l : Label) : Lit × TState :=
  match lookupA st.saved l with
  | some v => (v, st)
  | none =>
    (st.next + 1, { st with saved := st.saved ++ [(l, st.next + 1)], next := st.next + 1 })

/-- The clauses `tseytin_transformation` emits when gate `g` is encoded, given
the saved-literal table after the gate's own literal has been allocated
(`lits` are the operand literals in order, `top` the gate's literal).  `none`
is the `IndexError` on a NOT gate without operands. -/
def emitClauses (g : Gate) (lits : List Lit) (top : Lit) : Option (List Clause) :=
  match g.gate_type with
  | GateType.INPUT => some []
  | GateType.ALWAYS_TRUE => some [[top]]
  | GateType.ALWAYS_FALSE => some [[-top]]
  | GateType.NOT =>
    match lits with
    | l0 :: _ => some [[l0, top], [-l0, -top]]
    | [] => none
  | GateType.AND =>
    some ((lits.map (fun l => [l, -top])) ++ [top :: lits.map (fun l => -l)])

/-- One run of the `while stack:` loop body of `_process_all`, iterated with
fuel.  The stack is a list with its top at the head (Python appends/pops at the
end of its list).  `none` is a `KeyError` on an undefined gate label, an
`IndexError` on a malformed NOT gate, or fuel exhaustion. -/
def processLoop (c : Circuit) : Nat → TState → List (Label × Bool) → Option TState
  | 0, _, _ => none
  | _ + 1, st, [] => some st
  | fuel + 1, st, (l, expanded) :: rest =>
    if (lookupA st.saved l).isSome then
      processLoop c fuel st rest
    else if !expanded then
      match c.get_gate l with
      | none => none
      | some g =>
        processLoop c fuel st
          ((g.operands.filter (fun op => (lookupA st.saved op).isNone)).map
              (fun op => (op, false)) ++ (l, true) :: rest)
    else
      match c.get_gate l with
      | none => none
      | some g =>
        let p := g.operands.foldl
          (fun (acc : List Lit × TState) op =>
            let r := getOrNew acc.2 op
            (acc.1 ++ [r.1], r.2)) ([], st)
        let r := getOrNew p.2 l
        match emitClauses g p.1 r.1 with
        | none => none
        | some cls =>
          processLoop c fuel { r.2 with cnf := r.2.cnf ++ cls } rest

/-- Fuel that always suffices for `processLoop` on a well-formed circuit (the
proof is `processLoop_total`). -/
def tseytinFuel (c : Circuit) : Nat := 4 ^ (c.gates.length + 1) + 1

/-- `_process_all(root)`: run the iterative post-order traversal from `root`,
then read off `saved_lits[root]`. -/
def processAll (c : Circuit) (st : TState) (root : Label) : Option (Lit × TState) := do
  let st' ← processLoop c (tseytinFuel c) st [(root, false)]
  return getOrNew st' root

/-- `tseytin_transformation(circuit)` (`src/aig_cube/cnf.py`): seed the inputs
with fresh literals, encode every gate reachable from each output root, and
append a unit clause for each root. -/
def tseytin_transformation (c : Circuit) : Option Cnf := do
  let st0 : TState :=
    c.inputs.foldl (fun st l => (getOrNew st l).2) ⟨[], 0, []⟩
  let stF ← c.outputs.foldlM
    (fun st root => do
      let r ← processAll c st root
      return { r.2 with cnf := r.2.cnf ++ [[r.1]] })
    st0
  return ⟨stF.cnf, stF.saved⟩

/-! ## The constant-propagation simplifier
(`src/aig_cube/remove_constant_gates.py`) -/

/-- Intermediate state of `RemoveConstantGates._transform`: the circuit being
built, the map of gates known constant, and the forwarding map. -/
structure RcgState where
  new_circuit : Circuit
  const_map : List (Label × Bool)
  label_remap : List (Label × Label)

/-- `resolve_label` from `_transform`. -/
def resolveLabel (remap : List (Label × Label)) (l : Label) : Label :=
  (lookupA remap l).getD l

/-- The per-gate body of the `for g in circuit.top_sort(inverse=True):` loop of
`RemoveConstantGates._transform`.  `none` models the `RuntimeError`s and a
`TypeError` from calling an operator with the wrong arity. -/
def rcgStep (st : RcgState) (g : Gate) : Option RcgState :=
  let resolved := g.operands.map (resolveLabel st.label_remap)
  if g.gate_type = GateType.INPUT then
    some { st with new_circuit := st.new_circuit.emplace_gate g.label g.gate_type g.operands }
  else if g.gate_type = GateType.ALWAYS_TRUE then
    some { st with const_map := st.const_map ++ [(g.label, true)] }
  else if g.gate_type = GateType.ALWAYS_FALSE then
    some { st with const_map := st.const_map ++ [(g.label, false)] }
  else
    let const_indices := (List.range resolved.length).filter
      (fun i => (lookupA st.const_map (resolved.getD i "")).isSome)
    if const_indices.isEmpty then
      some { st with new_circuit := st.new_circuit.emplace_gate g.label g.gate_type resolved }
    else if const_indices.length = 1 ∧ resolved.length = 2 then
      match const_indices with
      | [const_idx] =>
        let const_val := (lookupA st.const_map (resolved.getD const_idx "")).getD false
        let non_const_idx := 1 - const_idx
        let non_const_op := resolved.getD non_const_idx ""
        let args0 := if const_idx = 0 then [const_val, false] else [false, const_val]
        let args1 := if const_idx = 0 then [const_val, true] else [true, const_val]
        match applyOperator g.gate_type args0, applyOperator g.gate_type args1 with
        | some val0, some val1 =>
          if val0 = val1 then
            some { st with const_map := st.const_map ++ [(g.label, val0)] }
          else if val0 = false ∧ val1 = true then
            some { st with label_remap := st.label_remap ++ [(g.label, non_const_op)] }
          else
            match st.new_circuit.get_gate non_const_op with
            | some og =>
              if og.gate_type = GateType.NOT then
                some { st with label_remap :=
                  st.label_remap ++ [(g.label, og.operands.getD 0 "")] }
              else
                some { st with new_circuit :=
                  st.new_circuit.emplace_gate g.label GateType.NOT [non_const_op] }
            | none =>
              some { st with new_circuit :=
                st.new_circuit.emplace_gate g.label GateType.NOT [non_const_op] }
        | _, _ => none
      | _ => none
    else if const_indices.length = resolved.length then
      match applyOperator g.gate_type
          (resolved.map (fun op => (lookupA st.const_map op).getD false)) with
      | some val => some { st with const_map := st.const_map ++ [(g.label, val)] }
      | none => none
    else
      none

/-- `RemoveConstantGates._transform(circuit)`: check arities, walk the gates in
input-to-output topological order folding constants, then set the surviving
inputs and the resolved non-constant outputs. -/
def rcgTransform (c : Circuit) : Option Circuit := do
  if c.gates.any (fun p => decide (p.2.operands.length > 2)) then none
  else
    let stF ← c.top_sort_inv.foldlM rcgStep ⟨Circuit.empty, [], []⟩
    let final_inputs := c.inputs.filter (fun l => (lookupA stF.const_map l).isNone)
    let final_outputs := (c.outputs.map (resolveLabel stF.label_remap)).filter
      (fun l => (lookupA stF.const_map l).isNone)
    return (stF.new_circuit.set_inputs final_inputs).set_outputs final_outputs

/-! ## The circuit-SAT instance (`src/aig_cube/circuit_instance.py`) -/

/-- `AssignmentStatus`. -/
inductive AssignmentStatus where
  | OK
  | CONFLICT
deriving DecidableEq, Repr

/-- `GateConfig`: per-gate metadata.  `idx` is `cnf.get_var(label)`, which is
`None` for a gate the Tseytin traversal never reached. -/
structure GateConfig where
  label : Label
  idx : Option Lit
  is_input : Bool
  value : Option Bool := none
deriving DecidableEq, Repr

/-- `CircuitSatInstance`: the mutable bundle of circuit, CNF and per-gate
metadata. -/
structure Inst where
  circuit : Circuit
  cnf : Cnf
  gates_config : List (Label × GateConfig)
deriving DecidableEq, Repr

/-- `CircuitSatInstance._check_circuit`: `true` iff no `ValueError` is raised —
every gate is INPUT, AND with 2 operands, or NOT with 1 operand (note that
ALWAYS_TRUE / ALWAYS_FALSE gates fall through to the final `raise`). -/
def checkCircuit (c : Circuit) : Bool :=
  c.gates.all (fun p =>
    match p.2.gate_type with
    | GateType.INPUT => true
    | GateType.AND => p.2.operands.length == 2
    | GateType.NOT => p.2.operands.length == 1
    | _ => false)

/-- The `for operand_label in gate.operands:` loop of the AND-true branch of
`_assign_and_propagate`: assign each operand true in turn through the
recursive call `f` (the propagation function one recursion level deeper),
stopping at the first non-OK status. -/
def assignOperandsTrue (f : Inst → Label → Bool → Option (Inst × AssignmentStatus)) :
    Inst → List Label → Option (Inst × AssignmentStatus)
  | s, [] => some (s, AssignmentStatus.OK)
  | s, op :: rest =>
    match f s op true with
    | none => none
    | some (s', st) =>
      if st = AssignmentStatus.OK then assignOperandsTrue f s' rest
      else some (s', st)

/-- `CircuitSatInstance._assign_and_propagate(label, value)`, with fuel
bounding the Python recursion depth.  Returns the mutated instance together
with the status; `none` is an uncaught exception (missing label or failed
`assert`) or fuel exhaustion.  A gate whose `gates_config` entry has
`idx = None` is modelled as a failure: in Python the False polarity raises
`TypeError` at `-lit`, and such gates are never assigned by the solver. -/
def assignAndPropagate : Nat → Inst → Label → Bool → Option (Inst × AssignmentStatus)
  | 0, _, _, _ => none
  | fuel + 1, s, label, value =>
    match s.circuit.get_gate label with
    | none => none
    | some gate =>
      if gate.gate_type = GateType.ALWAYS_TRUE ∨ gate.gate_type = GateType.ALWAYS_FALSE then
        if constValue gate.gate_type ≠ some value then some (s, AssignmentStatus.CONFLICT)
        else some (s, AssignmentStatus.OK)
      else
        match lookupA s.gates_config label with
        | none => none
        | some gc =>
          match gc.idx with
          | none => none
          | some lit =>
            let s := { s with cnf := s.cnf.add_clause [if value then lit else -lit] }
            if gate.gate_type = GateType.INPUT then
              let circuit' :=
                if value then s.circuit.replace_inputs [label] []
                else s.circuit.replace_inputs [] [label]
              some ({ s with
                  circuit := circuit'
                  gates_config := updateA s.gates_config label { gc with value := some value } },
                AssignmentStatus.OK)
            else
              let circuit' := gate.operands.foldl
                (fun c op => c.remove_user op label) s.circuit
              let circuit' := circuit'.set_gate label
                ⟨label, if value then GateType.ALWAYS_TRUE else GateType.ALWAYS_FALSE, []⟩
              let s := { s with circuit := circuit' }
              if gate.gate_type = GateType.NOT then
                match gate.operands with
                | op :: _ => assignAndPropagate fuel s op (!value)
                | [] => none
              else if gate.gate_type = GateType.AND ∧ value then
                assignOperandsTrue (assignAndPropagate fuel) s gate.operands
              else if gate.gate_type = GateType.AND ∧ ¬value then
                if gate.operands.length ≠ 2 then none
                else
                  match lookupA s.gates_config (gate.operands.getD 0 ""),
                      lookupA s.gates_config (gate.operands.getD 1 "") with
                  | some gc0, some gc1 =>
                    match gc0.idx, gc1.idx with
                    | some lit0, some lit1 =>
                      some ({ s with cnf := s.cnf.add_clause [-lit0, -lit1] },
                        AssignmentStatus.OK)
                    | _, _ => none
                  | _, _ => none
              else
                none

/-- `CircuitSatInstance.simplify()`: replace the circuit by its
constant-propagated form. -/
def instSimplify (s : Inst) : Option Inst :=
  (rcgTransform s.circuit).map (fun c => { s with circuit := c })

/-- `CircuitSatInstance.assign(label, value)`: propagate, then on OK run the
simplifier. -/
def assign (fuel : Nat) (s : Inst) (label : Label) (value : Bool) :
    Option (Inst × AssignmentStatus) := do
  let (s', st) ← assignAndPropagate fuel s label value
  if st ≠ AssignmentStatus.OK then return (s', st)
  else
    let s'' ← instSimplify s'
    return (s'', AssignmentStatus.OK)

/-- Default fuel used when the solver calls `assign`: the Python recursion
descends through operands of a DAG, so its depth is bounded by the gate
count. -/
def defaultFuel (s : Inst) : Nat := s.circuit.gates.length + 1

/-- `CircuitSatInstance.__init__`: validate the circuit, build the Tseytin
CNF, and populate `gates_config`.  `none` is the `ValueError` from
`_check_circuit` or a failure inside the encoder. -/
def instNew (c : Circuit) : Option Inst := do
  if !checkCircuit c then none
  else
    let cnf ← tseytin_transformation c
    let gcs := c.gates.map (fun p =>
      (p.1, { label := p.1
              idx := cnf.get_var p.1
              is_input := decide ((c.get_gate p.1).map (·.gate_type) = some GateType.INPUT)
            : GateConfig }))
    return ⟨c, cnf, gcs⟩

/-- `CircuitSatInstance.from_circuit`: build the instance and fix the single
output to true.  The inner `none` is the conflicting-construction case (the
method returns `None`); the outer `none` is an exception (e.g. the
`assert circuit.output_size == 1`). -/
def fromCircuit (c : Circuit) : Option (Option Inst) := do
  if c.output_size ≠ 1 then none
  else
    let inst ← instNew c
    match c.outputs with
    | [out] =>
      let (inst', st) ← assign (defaultFuel inst) inst out true
      if st ≠ AssignmentStatus.OK then return none
      else return (some inst')
    | _ => none

/-! ## The cube driver (`src/aig_cube/solver.py`) -/

/-- `_GateWeightResult`. -/
structure GateWeightResult where
  weight : Option Int := none
  forced_value : Option Bool := none
deriving DecidableEq, Repr

/-- `_CubeGateSelection`. -/
structure CubeGateSelection where
  label : Label
  forced_value : Option Bool := none
deriving DecidableEq, Repr

/-- Insert into a list sorted by descending score, after all entries with a
greater-or-equal score. -/
def insertDesc (x : Int × Label) : List (Int × Label) → List (Int × Label)
  | [] => [x]
  | y :: ys => if y.1 ≥ x.1 then y :: insertDesc x ys else x :: y :: ys

/-- `scores.sort(key=lambda x: x[0], reverse=True)` — a stable sort by
descending score (Python's sort is stable, and all stable sorts agree). -/
def sortDesc (xs : List (Int × Label)) : List (Int × Label) :=
  xs.foldl (fun acc x => insertDesc x acc) []

/-- The structural score of one gate in `_rank_candidates`:
`(indegree + 1) * (outdegree + 1)` where a NOT user contributes its own user
count.  `none` is the `KeyError` when a user label is not in the gate table. -/
def gateScore (c : Circuit) (label : Label) (g : Gate) : Option Int := do
  let indegree : Int := g.operands.length
  let outdegree ← (c.get_gate_users label).foldlM
    (fun (acc : Int) user_label => do
      let user ← c.get_gate user_label
      if user.gate_type = GateType.NOT then
        return acc + (c.get_gate_users user_label).length
      else
        return acc + 1)
    0
  return (indegree + 1) * (outdegree + 1)

/-- One iteration of the scoring loop of `_rank_candidates`: NOT and constant
gates are skipped (the remaining types, INPUT and AND, satisfy the
`assert`). -/
def rankStep (c : Circuit) (acc : List (Int × Label)) (p : Label × Gate) :
    Option (List (Int × Label)) :=
  match p.2.gate_type with
  | GateType.ALWAYS_TRUE => some acc
  | GateType.ALWAYS_FALSE => some acc
  | GateType.NOT => some acc
  | _ => do
    let score ← gateScore c p.1 p.2
    return acc ++ [(score, p.1)]

/-- `CubeAndConquerSolver._rank_candidates`: score every INPUT or AND gate,
sort descending (stably), and keep the top `candidates_limit`. -/
def rankCandidates (limit : Nat) (inst : Inst) : Option (List Label) := do
  let scores ← inst.circuit.gates.foldlM (rankStep inst.circuit) []
  return ((sortDesc scores).take limit).map (·.2)

/-- `CubeAndConquerSolver._weight_gate`: lookahead on both polarities of a
deep copy; a conflicting polarity makes the branch forced, otherwise the
weight is the product of the two size reductions (each asserted positive). -/
def weightGate (inst : Inst) (label : Label) : Option GateWeightResult := do
  let start : Int := inst.circuit.size
  let (s0, st0) ← assign (defaultFuel inst) inst label false
  if st0 ≠ AssignmentStatus.OK then
    return { forced_value := some true }
  else
    let d0 : Int := start - s0.circuit.size
    if d0 ≤ 0 then none
    else
      let (s1, st1) ← assign (defaultFuel inst) inst label true
      if st1 ≠ AssignmentStatus.OK then
        return { forced_value := some false }
      else
        let d1 : Int := start - s1.circuit.size
        if d1 ≤ 0 then none
        else return { weight := some (d0 * d1) }

/-- The `for label in candidates:` loop of `_select_gate`, carrying the best
label and weight so far. -/
def selectLoop (inst : Inst) : List Label → Option Label → Int →
    Option (Option CubeGateSelection)
  | [], best, _ =>
    match best with
    | some l => some (some ⟨l, none⟩)
    | none => none
  | l :: rest, best, bw => do
    let wr ← weightGate inst l
    match wr.forced_value with
    | some v => some (some ⟨l, some v⟩)
    | none =>
      match wr.weight with
      | some w =>
        if w > bw then selectLoop inst rest (some l) w
        else selectLoop inst rest best bw
      | none => none

/-- `CubeAndConquerSolver._select_gate`: rank candidates, then weight them in
order, returning a forced selection as soon as one polarity conflicts.  The
inner `none` is the Python `return None` on an empty candidate list. -/
def selectGate (limit : Nat) (inst : Inst) : Option (Option CubeGateSelection) := do
  let cands ← rankCandidates limit inst
  if cands.isEmpty then return none
  else selectLoop inst cands none 0

/-- `CubeAndConquerSolver._should_stop`. -/
def shouldStop (maxDepth : Nat) (inst : Inst) (depth : Nat) : Bool :=
  inst.circuit.input_size == 0 || decide (maxDepth ≤ depth)

/-- `CubeAndConquerSolver._cube(instance, depth)` — the recursive cubing.  In
the forced branch the status returned by `instance.assign` is discarded and
the driver recurses at `depth + 1`; otherwise both polarities are applied to
(deep copies of) the instance and the results concatenated.  The explicit
fuel only bounds the recursion depth (which the source bounds through the
depth counter itself: every recursive call passes `depth + 1`, so
`max_depth - depth` shrinks at each level); `maxDepth - depth + 1` fuel always
suffices. -/
def cubeRec (maxDepth limit : Nat) : Nat → Inst → Nat → Option (List Inst)
  | 0, _, _ => none
  | fuel + 1, inst, depth =>
    if shouldStop maxDepth inst depth then some [inst]
    else do
      let sel? ← selectGate limit inst
      match sel? with
      | none => some [inst]
      | some sel =>
        match sel.forced_value with
        | some v => do
          let r ← assign (defaultFuel inst) inst sel.label v
          cubeRec maxDepth limit fuel r.1 (depth + 1)
        | none => do
          let r0 ← assign (defaultFuel inst) inst sel.label false
          let c0 ← cubeRec maxDepth limit fuel r0.1 (depth + 1)
          let r1 ← assign (defaultFuel inst) inst sel.label true
          let c1 ← cubeRec maxDepth limit fuel r1.1 (depth + 1)
          return c0 ++ c1

/-- Modelled from the spec: the cube recursion as the claim describes it — a
forced branch "recurses without incrementing the depth counter".  Identical to
`cubeRec` except for the depth passed in the forced branch; since that
recursion need not terminate it takes explicit fuel. -/
def cubeSpecForced (maxDepth limit : Nat) : Nat → Inst → Nat → Option (List Inst)
  | 0, _, _ => none
  | fuel + 1, inst, depth =>
    if shouldStop maxDepth inst depth then some [inst]
    else do
      let sel? ← selectGate limit inst
      match sel? with
      | none => some [inst]
      | some sel =>
        match sel.forced_value with
        | some v => do
          let r ← assign (defaultFuel inst) inst sel.label v
          cubeSpecForced maxDepth limit fuel r.1 depth
        | none => do
          let r0 ← assign (defaultFuel inst) inst sel.label false
          let c0 ← cubeSpecForced maxDepth limit fuel r0.1 (depth + 1)
          let r1 ← assign (defaultFuel inst) inst sel.label true
          let c1 ← cubeSpecForced maxDepth limit fuel r1.1 (depth + 1)
          return c0 ++ c1

/-- `PySatResult` (`src/aig_cube/sat.py`). -/
structure PySatResult where
  answer : Bool
  model : Option (List Lit)
deriving DecidableEq, Repr

/-- The model-construction loop of `CubeAndConquerSolver.conquer` on a SAT
cube: walk `gates_config`, and for every INPUT entry write
`idx if value else -idx` at position `idx - 1` (note that Python truthiness
maps an unassigned `value = None` to `-idx`).  `none` models the
`assert result.model is not None`, a `None` idx, or an out-of-range index. -/
def conquerModelLoop (backendModel : Option (List Lit)) :
    List (Label × GateConfig) → List Lit → Option (List Lit)
  | [], model => some model
  | (_, gc) :: rest, model =>
    if !gc.is_input then conquerModelLoop backendModel rest model
    else if backendModel.isNone then none
    else
      match gc.idx with
      | none => none
      | some i =>
        if 0 ≤ i - 1 ∧ i - 1 < (model.length : Int) then
          conquerModelLoop backendModel rest
            (model.set (i - 1).toNat (if gc.value = some true then i else -i))
        else none

/-- `CubeAndConquerSolver.conquer(cubes)`: solve each cube with the backend
(`is_satisfiable`, modelled as an oracle parameter), stopping at the first SAT
answer and reconstructing a model array of length `len(gates_config)`. -/
def conquer (oracle : Cnf → PySatResult) : List Inst → Option PySatResult
  | [] => some ⟨false, none⟩
  | inst :: rest =>
    let result := oracle inst.cnf
    if result.answer then do
      let m ← conquerModelLoop result.model inst.gates_config
        (List.replicate inst.gates_config.length 0)
      return ⟨true, some m⟩
    else conquer oracle rest

/-! ## The external conquer dispatcher (`src/scripts/solve_external.py`) -/

/-- The answer aggregation of the `for i, instance in enumerate(cubes):` loop
in `main`: `answer` starts `False`, the loop breaks at the first cube whose
solver run returns SAT, and an UNKNOWN cube (`None`, from an unexpected exit
code or a timeout in `run_external_solver`) is simply passed over. -/
def aggregateAnswer : List (Option Bool) → Bool
  | [] => false
  | some true :: _ => true
  | _ :: rest => aggregateAnswer rest

/-- `final = "SAT" if answer else "UNSAT"` — the verdict `main` prints. -/
def finalVerdict (results : List (Option Bool)) : String :=
  if aggregateAnswer results then "SAT" else "UNSAT"

/-! ## Toolkit lemmas about the dictionary model -/

theorem lookupA_nil {α : Type} (l : Label) : lookupA ([] : List (Label × α)) l = none := rfl

theorem lookupA_cons {α : Type} (k : Label) (v : α) (xs : List (Label × α)) (l : Label) :
    lookupA ((k, v) :: xs) l = if k = l then some v else lookupA xs l := by
  by_cases h : k = l <;> simp [lookupA, List.find?_cons, h]

theorem lookupA_append {α : Type} (xs ys : List (Label × α)) (l : Label) :
    lookupA (xs ++ ys) l =
      match lookupA xs l with
      | some v => some v
      | none => lookupA ys l := by
  induction xs with
  | nil => simp [lookupA_nil]
  | cons p rest ih =>
    obtain ⟨k, v⟩ := p
    by_cases h : k = l <;> simp [lookupA_cons, h, ih]

theorem lookupA_append_left {α : Type} {xs : List (Label × α)} {l : Label} {v : α}
    (h : lookupA xs l = some v) (ys : List (Label × α)) :
    lookupA (xs ++ ys) l = some v := by
  rw [lookupA_append, h]

theorem lookupA_append_right {α : Type} {xs : List (Label × α)} {l : Label}
    (h : lookupA xs l = none) (ys : List (Label × α)) :
    lookupA (xs ++ ys) l = lookupA ys l := by
  rw [lookupA_append, h]

theorem updateA_cons {α : Type} (k : Label) (w : α) (xs : List (Label × α))
    (l : Label) (v : α) :
    updateA ((k, w) :: xs) l v =
      (if k = l then (l, v) else (k, w)) :: updateA xs l v := by
  by_cases h : k = l <;> simp [updateA, h]

theorem lookupA_updateA_self {α : Type} (xs : List (Label × α)) (l : Label) (v : α) :
    lookupA (updateA xs l v) l = if (lookupA xs l).isSome then some v else none := by
  induction xs with
  | nil => simp [updateA, lookupA_nil]
  | cons p rest ih =>
    obtain ⟨k, w⟩ := p
    rw [updateA_cons]
    by_cases h : k = l
    · subst h
      simp [lookupA_cons]
    · simp [lookupA_cons, h, ih]

theorem lookupA_updateA_ne {α : Type} (xs : List (Label × α)) (l l' : Label) (v : α)
    (h : l ≠ l') : lookupA (updateA xs l v) l' = lookupA xs l' := by
  induction xs with
  | nil => simp [updateA, lookupA_nil]
  | cons p rest ih =>
    obtain ⟨k, w⟩ := p
    rw [updateA_cons]
    by_cases hk : k = l
    · subst hk
      simp [lookupA_cons, h, ih]
    · by_cases hk' : k = l'
      · subst hk'
        rw [if_neg (Ne.symm h)]
        simp [lookupA_cons, ih]
      · simp [lookupA_cons, hk, hk', ih]

theorem lookupA_isSome_iff_memKeys {α : Type} (xs : List (Label × α)) (l : Label) :
    (lookupA xs l).isSome = true ↔ l ∈ xs.map (·.1) := by
  induction xs with
  | nil => simp [lookupA_nil]
  | cons p rest ih =>
    obtain ⟨k, v⟩ := p
    rw [lookupA_cons, List.map_cons, List.mem_cons]
    by_cases h : k = l
    · subst h
      simp
    · rw [if_neg h]
      constructor
      · intro hs
        exact Or.inr (ih.mp hs)
      · rintro (hh | hh)
        · exact absurd hh.symm h
        · exact ih.mpr hh

/-! ## Claim C8: construction validation (`_check_circuit`) -/

/-- A one-gate circuit containing an ALWAYS_TRUE constant gate. -/
def constTrueCircuit : Circuit :=
  ⟨[("t", ⟨"t", GateType.ALWAYS_TRUE, []⟩)], [], ["t"], [("t", [])]⟩

/-- C8 counterexample: `constTrueCircuit` consists solely of gates from the
set {INPUT, AND(2), NOT(1), ALWAYS_TRUE, ALWAYS_FALSE} with legal arities
(first conjunct), yet `_check_circuit` raises on it (second conjunct) — the
`for` loop of `_check_circuit` only accepts INPUT, binary AND and unary NOT,
so a constant gate falls through to the `raise ValueError`. -/
theorem c8_counterexample :
    constTrueCircuit.gates.all (fun p => arityOK p.2) = true ∧
      checkCircuit constTrueCircuit = false := by
  exact ⟨rfl, rfl⟩

/-- C8 (amended): `CircuitSatInstance._check_circuit` accepts a circuit
exactly when every gate is INPUT, an AND with two operands, or a NOT with one
operand; in particular a circuit containing an ALWAYS_TRUE or ALWAYS_FALSE
gate is rejected. -/
theorem checkCircuit_accepts_iff (c : Circuit) :
    checkCircuit c = true ↔
      ∀ p ∈ c.gates,
        p.2.gate_type = GateType.INPUT ∨
          (p.2.gate_type = GateType.AND ∧ p.2.operands.length = 2) ∨
          (p.2.gate_type = GateType.NOT ∧ p.2.operands.length = 1) := by
  rw [checkCircuit, List.all_eq_true]
  refine forall_congr' fun p => forall_congr' fun _ => ?_
  obtain ⟨l, ⟨gl, gt, ops⟩⟩ := p
  cases gt <;> simp

/-! ## Claim C9: aggregation of per-cube results in `solve_external.py` -/

/-- C9 (code bug): a run whose two cubes come back UNSAT and UNKNOWN (the
second from an unexpected exit code or timeout) is reported as "UNSAT" by the
dispatcher — `main` initializes `answer = False`, only ever sets it on a SAT
cube, and prints `"SAT" if answer else "UNSAT"`, so UNKNOWN cubes are
silently counted as UNSAT, contradicting the specified UNKNOWN surfacing. -/
theorem c9_unknown_reported_unsat :
    finalVerdict [some false, none] = "UNSAT" ∧
      aggregateAnswer [some false, none] = false := by
  exact ⟨rfl, rfl⟩

/-! ## Claim C2: assigning False to an AND gate -/

/-- C2: assigning `false` to an AND gate `g` with (non-constant) operands
`u0`, `u1` appends exactly the unit clause `[-v(g)]` and the binary clause
`[-v(u0), -v(u1)]`, replaces `g` by an ALWAYS_FALSE gate, severs `g`'s operand
edges in the user index, and does not descend into either operand: the
operands' gates, the whole `gates_config`, and the variable map are
unchanged. -/
theorem c2_and_false_assignment
    (fuel : Nat) (s : Inst) (g u0 u1 : Label)
    (gcg gc0 gc1 : GateConfig) (ig i0 i1 : Lit) (t0 t1 : Gate)
    (hg : s.circuit.get_gate g = some ⟨g, GateType.AND, [u0, u1]⟩)
    (hgc : lookupA s.gates_config g = some gcg) (hgi : gcg.idx = some ig)
    (h0 : lookupA s.gates_config u0 = some gc0) (h0i : gc0.idx = some i0)
    (h1 : lookupA s.gates_config u1 = some gc1) (h1i : gc1.idx = some i1)
    (ht0 : s.circuit.get_gate u0 = some t0) (hc0 : constValue t0.gate_type = none)
    (ht1 : s.circuit.get_gate u1 = some t1) (hc1 : constValue t1.gate_type = none)
    (hne0 : u0 ≠ g) (hne1 : u1 ≠ g) (hne01 : u0 ≠ u1) :
    ∃ s', assignAndPropagate (fuel + 1) s g false = some (s', AssignmentStatus.OK) ∧
      s'.cnf.cnf = s.cnf.cnf ++ [[-ig], [-i0, -i1]] ∧
      s'.cnf.var_map = s.cnf.var_map ∧
      s'.gates_config = s.gates_config ∧
      s'.circuit.get_gate g = some ⟨g, GateType.ALWAYS_FALSE, []⟩ ∧
      s'.circuit.get_gate u0 = s.circuit.get_gate u0 ∧
      s'.circuit.get_gate u1 = s.circuit.get_gate u1 ∧
      s'.circuit.get_gate_users u0 = (s.circuit.get_gate_users u0).erase g ∧
      s'.circuit.get_gate_users u1 = (s.circuit.get_gate_users u1).erase g ∧
      s'.circuit.inputs = s.circuit.inputs ∧
      s'.circuit.outputs = s.circuit.outputs := by
  have hres : assignAndPropagate (fuel + 1) s g false =
      some
        ({ circuit := ((s.circuit.remove_user u0 g).remove_user u1 g).set_gate g
              ⟨g, GateType.ALWAYS_FALSE, []⟩
           cnf := (s.cnf.add_clause [-ig]).add_clause [-i0, -i1]
           gates_config := s.gates_config }, AssignmentStatus.OK) := by
    simp only [assignAndPropagate, hg, hgc, hgi]
    simp [List.foldl, h0, h1, h0i, h1i]
  refine ⟨_, hres, ?_, rfl, rfl, ?_, ?_, ?_, ?_, ?_, rfl, rfl⟩
  · simp [Cnf.add_clause]
  · show lookupA (updateA ((s.circuit.remove_user u0 g).remove_user u1 g).gates g _) g = _
    rw [lookupA_updateA_self]
    have hs : (lookupA s.circuit.gates g).isSome := by
      rw [show lookupA s.circuit.gates g = s.circuit.get_gate g from rfl, hg]
      rfl
    simp only [Circuit.remove_user]
    simp [hs]
  · show lookupA (updateA ((s.circuit.remove_user u0 g).remove_user u1 g).gates g _) u0 = _
    rw [lookupA_updateA_ne _ _ _ _ hne0.symm]
    rfl
  · show lookupA (updateA ((s.circuit.remove_user u0 g).remove_user u1 g).gates g _) u1 = _
    rw [lookupA_updateA_ne _ _ _ _ hne1.symm]
    rfl
  · show (lookupA (updateA (updateA s.circuit.users u0 _) u1 _) u0).getD [] = _
    rw [lookupA_updateA_ne _ _ _ _ hne01.symm, lookupA_updateA_self]
    cases hL : lookupA s.circuit.users u0 <;> simp [hL, Circuit.get_gate_users]
  · show (lookupA (updateA (updateA s.circuit.users u0 _) u1 _) u1).getD [] = _
    rw [lookupA_updateA_self, lookupA_updateA_ne _ _ _ _ hne01]
    simp only [Circuit.remove_user, Circuit.get_gate_users]
    rw [lookupA_updateA_ne _ _ _ _ hne01]
    cases hL : lookupA s.circuit.users u1 <;> simp [hL]

/-- A small concrete instance: `g = AND(x, y)` over inputs `x`, `y`. -/
def c2inst : Inst :=
  { circuit :=
      ⟨[("x", ⟨"x", GateType.INPUT, []⟩), ("y", ⟨"y", GateType.INPUT, []⟩),
        ("g", ⟨"g", GateType.AND, ["x", "y"]⟩)],
       ["x", "y"], ["g"],
       [("x", ["g"]), ("y", ["g"]), ("g", [])]⟩
    cnf := ⟨[], [("x", 1), ("y", 2), ("g", 3)]⟩
    gates_config :=
      [("x", ⟨"x", some 1, true, none⟩), ("y", ⟨"y", some 2, true, none⟩),
       ("g", ⟨"g", some 3, false, none⟩)] }

/-- Witness for C2 at the concrete instance `c2inst`. -/
theorem c2_witness :
    ∃ s', assignAndPropagate 1 c2inst "g" false = some (s', AssignmentStatus.OK) ∧
      s'.cnf.cnf = c2inst.cnf.cnf ++ [[-3], [-1, -2]] ∧
      s'.cnf.var_map = c2inst.cnf.var_map ∧
      s'.gates_config = c2inst.gates_config ∧
      s'.circuit.get_gate "g" = some ⟨"g", GateType.ALWAYS_FALSE, []⟩ ∧
      s'.circuit.get_gate "x" = c2inst.circuit.get_gate "x" ∧
      s'.circuit.get_gate "y" = c2inst.circuit.get_gate "y" ∧
      s'.circuit.get_gate_users "x" = (c2inst.circuit.get_gate_users "x").erase "g" ∧
      s'.circuit.get_gate_users "y" = (c2inst.circuit.get_gate_users "y").erase "g" ∧
      s'.circuit.inputs = c2inst.circuit.inputs ∧
      s'.circuit.outputs = c2inst.circuit.outputs :=
  c2_and_false_assignment 0 c2inst "g" "x" "y"
    ⟨"g", some 3, false, none⟩ ⟨"x", some 1, true, none⟩ ⟨"y", some 2, true, none⟩
    3 1 2 ⟨"x", GateType.INPUT, []⟩ ⟨"y", GateType.INPUT, []⟩
    (by decide) (by decide) (by decide) (by decide) (by decide) (by decide)
    (by decide) (by decide) (by decide) (by decide) (by decide)
    (by decide) (by decide) (by decide)

/-! ## Claim C3: assignment preserves the variable numbering -/

/-- The state relation claim C3 asserts for `assign`: the CNF variable map is
unchanged, clauses are only appended, and every `gates_config` entry survives
with the same `idx` (and `is_input` and `label`). -/
def Preserves (s r : Inst) : Prop :=
  r.cnf.var_map = s.cnf.var_map ∧
  (∃ t, r.cnf.cnf = s.cnf.cnf ++ t) ∧
  ∀ lbl gc, lookupA s.gates_config lbl = some gc →
    ∃ gc', lookupA r.gates_config lbl = some gc' ∧ gc'.idx = gc.idx ∧
      gc'.is_input = gc.is_input ∧ gc'.label = gc.label

theorem Preserves.refl (s : Inst) : Preserves s s :=
  ⟨rfl, ⟨[], by simp⟩, fun lbl gc h => ⟨gc, h, rfl, rfl, rfl⟩⟩

theorem Preserves.trans {a b c : Inst} (h1 : Preserves a b) (h2 : Preserves b c) :
    Preserves a c := by
  obtain ⟨v1, ⟨t1, c1⟩, g1⟩ := h1
  obtain ⟨v2, ⟨t2, c2⟩, g2⟩ := h2
  refine ⟨v2.trans v1, ⟨t1 ++ t2, by rw [c2, c1, List.append_assoc]⟩, ?_⟩
  intro lbl gc h
  obtain ⟨gc', hb, hidx, hinp, hlab⟩ := g1 lbl gc h
  obtain ⟨gc'', hc, hidx', hinp', hlab'⟩ := g2 lbl gc' hb
  exact ⟨gc'', hc, hidx'.trans hidx, hinp'.trans hinp, hlab'.trans hlab⟩

theorem Preserves.same_config {s r : Inst} (hv : r.cnf.var_map = s.cnf.var_map)
    (hc : ∃ t, r.cnf.cnf = s.cnf.cnf ++ t) (hg : r.gates_config = s.gates_config) :
    Preserves s r := by
  refine ⟨hv, hc, ?_⟩
  intro lbl gc h
  exact ⟨gc, by rw [hg]; exact h, rfl, rfl, rfl⟩

theorem Preserves.config_value {s : Inst} {label : Label} {gc : GateConfig}
    (hl : lookupA s.gates_config label = some gc) (c' : Circuit) (f' : Cnf)
    (hv : f'.var_map = s.cnf.var_map) (hc : ∃ t, f'.cnf = s.cnf.cnf ++ t)
    (v : Option Bool) :
    Preserves s ⟨c', f', updateA s.gates_config label { gc with value := v }⟩ := by
  refine ⟨hv, hc, ?_⟩
  intro lbl gcq h
  by_cases he : label = lbl
  · subst he
    rw [hl] at h
    injection h with h
    subst h
    refine ⟨{ gc with value := v }, ?_, rfl, rfl, rfl⟩
    show lookupA (updateA s.gates_config label _) label = _
    rw [lookupA_updateA_self, hl]
    rfl
  · refine ⟨gcq, ?_, rfl, rfl, rfl⟩
    show lookupA (updateA s.gates_config label _) lbl = _
    rw [lookupA_updateA_ne _ _ _ _ he, h]

/-- The operand loop preserves the state relation whenever the propagation
function it iterates does. -/
theorem assignOperandsTrue_preserves
    (f : Inst → Label → Bool → Option (Inst × AssignmentStatus))
    (hf : ∀ s l v r, f s l v = some r → Preserves s r.1) :
    ∀ ops s r, assignOperandsTrue f s ops = some r → Preserves s r.1 := by
  intro ops
  induction ops with
  | nil =>
    intro s r h
    simp only [assignOperandsTrue] at h
    cases h
    exact Preserves.refl s
  | cons o rest iho =>
    intro s r h
    rw [assignOperandsTrue] at h
    cases ha : f s o true with
    | none => rw [ha] at h; cases h
    | some p =>
      rw [ha] at h
      obtain ⟨ps, pst⟩ := p
      simp only at h
      have hp := hf _ _ _ _ ha
      by_cases hst : pst = AssignmentStatus.OK
      · rw [if_pos hst] at h
        exact Preserves.trans hp (iho _ _ h)
      · rw [if_neg hst] at h
        cases h
        exact hp

/-- Main preservation lemma: `_assign_and_propagate` relates input and output
state by `Preserves`, for every fuel. -/
theorem assignAndPropagate_preserves :
    ∀ fuel s l v r, assignAndPropagate fuel s l v = some r → Preserves s r.1 := by
  intro fuel
  induction fuel with
  | zero =>
    intro s l v r h
    simp [assignAndPropagate] at h
  | succ fuel ih =>
    intro s l v r h
    rw [assignAndPropagate] at h
    cases hg : s.circuit.get_gate l with
    | none => rw [hg] at h; cases h
    | some gate =>
      rw [hg] at h
      simp only at h
      by_cases hconst : gate.gate_type = GateType.ALWAYS_TRUE ∨
          gate.gate_type = GateType.ALWAYS_FALSE
      · rw [if_pos hconst] at h
        split at h <;> (cases h; exact Preserves.refl s)
      · rw [if_neg hconst] at h
        cases hgc : lookupA s.gates_config l with
        | none => rw [hgc] at h; cases h
        | some gc =>
          rw [hgc] at h
          simp only at h
          cases hidx : gc.idx with
          | none => rw [hidx] at h; cases h
          | some lit =>
            rw [hidx] at h
            simp only at h
            by_cases hinp : gate.gate_type = GateType.INPUT
            · rw [if_pos hinp] at h
              cases h
              rw [← hidx]
              refine Preserves.config_value hgc _ _ ?_ ?_ _
              · rfl
              · exact ⟨[[if v = true then lit else -lit]], rfl⟩
            · rw [if_neg hinp] at h
              by_cases hnot : gate.gate_type = GateType.NOT
              · rw [if_pos hnot] at h
                cases hops : gate.operands with
                | nil => rw [hops] at h; cases h
                | cons op rest =>
                  rw [hops] at h
                  have hpre := ih _ _ _ _ h
                  refine Preserves.trans (Preserves.same_config ?_ ?_ ?_) hpre
                  · rfl
                  · exact ⟨[[if v = true then lit else -lit]], rfl⟩
                  · rfl
              · rw [if_neg hnot] at h
                by_cases hand : gate.gate_type = GateType.AND ∧ v = true
                · rw [if_pos hand] at h
                  have hpre := assignOperandsTrue_preserves _ ih _ _ _ h
                  refine Preserves.trans (Preserves.same_config ?_ ?_ ?_) hpre
                  · rfl
                  · exact ⟨[[if v = true then lit else -lit]], rfl⟩
                  · rfl
                · rw [if_neg hand] at h
                  by_cases hand2 : gate.gate_type = GateType.AND ∧ ¬v = true
                  · rw [if_pos hand2] at h
                    split at h
                    · cases h
                    · split at h
                      · split at h
                        · rename_i lit0 lit1 heq0 heq1
                          cases h
                          refine Preserves.same_config ?_
                            ⟨[[if v = true then lit else -lit], [-lit0, -lit1]], ?_⟩ ?_
                          · rfl
                          · simp [Cnf.add_clause]
                          · rfl
                        · cases h
                      · cases h
                  · rw [if_neg hand2] at h
                    cases h

/-- C3: whatever status a completed `assign(label, value)` call returns, the
CNF variable map is unchanged, clauses are only appended, and every
`gates_config` entry survives with its `idx` unchanged. -/
theorem c3_assign_preserves_numbering (fuel : Nat) (s : Inst) (label : Label)
    (value : Bool) (r : Inst × AssignmentStatus)
    (h : assign fuel s label value = some r) :
    r.1.cnf.var_map = s.cnf.var_map ∧
      (∃ t, r.1.cnf.cnf = s.cnf.cnf ++ t) ∧
      ∀ lbl gc, lookupA s.gates_config lbl = some gc →
        ∃ gc', lookupA r.1.gates_config lbl = some gc' ∧ gc'.idx = gc.idx := by
  have hmain : Preserves s r.1 := by
    unfold assign at h
    cases ha : assignAndPropagate fuel s label value with
    | none => rw [ha] at h; cases h
    | some p =>
      rw [ha] at h
      obtain ⟨ps, pst⟩ := p
      have hp := assignAndPropagate_preserves fuel _ _ _ _ ha
      simp only [bind, Option.bind] at h
      by_cases hst : pst = AssignmentStatus.OK
      · subst hst
        simp only [ne_eq, not_true_eq_false, if_false] at h
        cases hs : instSimplify ps with
        | none => rw [hs] at h; cases h
        | some s'' =>
          rw [hs] at h
          cases h
          refine Preserves.trans hp ?_
          unfold instSimplify at hs
          cases ht : rcgTransform ps.circuit with
          | none => rw [ht] at hs; cases hs
          | some c' =>
            rw [ht] at hs
            simp only [Option.map_some'] at hs
            injection hs with hs
            subst hs
            exact Preserves.same_config rfl ⟨[], by simp⟩ rfl
      · rw [if_pos (by simp [hst])] at h
        cases h
        exact hp
  obtain ⟨hv, hc, hgx⟩ := hmain
  refine ⟨hv, hc, ?_⟩
  intro lbl gc hgc
  obtain ⟨gc', h1, h2, _, _⟩ := hgx lbl gc hgc
  exact ⟨gc', h1, h2⟩

/-- The completed state of `assign(g, False)` on `c2inst`, used to discharge
the hypothesis of the C3 theorem at a concrete input. -/
def c2instAfter : Inst :=
  { circuit :=
      ⟨[("x", ⟨"x", GateType.INPUT, []⟩), ("y", ⟨"y", GateType.INPUT, []⟩)],
       ["x", "y"], [], [("x", []), ("y", [])]⟩
    cnf := ⟨[[-3], [-1, -2]], [("x", 1), ("y", 2), ("g", 3)]⟩
    gates_config :=
      [("x", ⟨"x", some 1, true, none⟩), ("y", ⟨"y", some 2, true, none⟩),
       ("g", ⟨"g", some 3, false, none⟩)] }

/-- Witness for C3: the preservation statement evaluated on the completed
concrete call `assign(g, False)` on `c2inst`. -/
theorem c3_witness :
    c2instAfter.cnf.var_map = c2inst.cnf.var_map ∧
      (∃ t, c2instAfter.cnf.cnf = c2inst.cnf.cnf ++ t) ∧
      ∀ lbl gc, lookupA c2inst.gates_config lbl = some gc →
        ∃ gc', lookupA c2instAfter.gates_config lbl = some gc' ∧ gc'.idx = gc.idx :=
  c3_assign_preserves_numbering 4 c2inst "g" false (c2instAfter, AssignmentStatus.OK)
    (by decide)

/-! ## Claim C10: the forced-branch status and both-polarity conflicts -/

theorem lookupA_of_mem_nodup {α : Type} {xs : List (Label × α)} {l : Label} {v : α}
    (hnd : (xs.map (·.1)).Nodup) (hm : (l, v) ∈ xs) : lookupA xs l = some v := by
  induction xs with
  | nil => cases hm
  | cons p rest ih =>
    obtain ⟨k, w⟩ := p
    rw [List.map_cons, List.nodup_cons] at hnd
    rcases List.mem_cons.mp hm with he | hm'
    · cases he
      simp [lookupA_cons]
    · have hkl : k ≠ l := by
        intro hk
        subst hk
        exact hnd.1 (List.mem_map.mpr ⟨(k, v), hm', rfl⟩)
      rw [lookupA_cons, if_neg hkl]
      exact ih hnd.2 hm'

/-- `_assign_and_propagate(label, False)` on an INPUT or AND gate never
returns CONFLICT: the INPUT branch returns OK immediately and the AND=false
branch emits its clauses without descending. -/
theorem assignAndPropagate_false_status (fuel : Nat) (s : Inst) (label : Label)
    (gate : Gate) (hg : s.circuit.get_gate label = some gate)
    (ht : gate.gate_type = GateType.INPUT ∨ gate.gate_type = GateType.AND) :
    ∀ r, assignAndPropagate fuel s label false = some r →
      r.2 = AssignmentStatus.OK := by
  intro r h
  cases fuel with
  | zero => simp [assignAndPropagate] at h
  | succ fuel =>
    rw [assignAndPropagate, hg] at h
    simp only at h
    have hconst : ¬(gate.gate_type = GateType.ALWAYS_TRUE ∨
        gate.gate_type = GateType.ALWAYS_FALSE) := by
      rcases ht with ht | ht <;> rw [ht] <;> simp
    rw [if_neg hconst] at h
    cases hgc : lookupA s.gates_config label with
    | none => rw [hgc] at h; cases h
    | some gc =>
      rw [hgc] at h
      simp only at h
      cases hidx : gc.idx with
      | none => rw [hidx] at h; cases h
      | some lit =>
        rw [hidx] at h
        simp only at h
        rcases ht with ht | ht
        · rw [if_pos ht] at h
          cases h
          rfl
        · have hinp : ¬gate.gate_type = GateType.INPUT := by rw [ht]; simp
          have hnot : ¬gate.gate_type = GateType.NOT := by rw [ht]; simp
          rw [if_neg hinp, if_neg hnot,
            if_neg (by simp : ¬(gate.gate_type = GateType.AND ∧ false = true)),
            if_pos ⟨ht, by simp⟩] at h
          split at h
          · cases h
          · split at h
            · split at h
              · cases h
                rfl
              · cases h
            · cases h

/-- `assign(label, False)` on an INPUT or AND gate never returns CONFLICT. -/
theorem assign_false_status (fuel : Nat) (s : Inst) (label : Label)
    (gate : Gate) (hg : s.circuit.get_gate label = some gate)
    (ht : gate.gate_type = GateType.INPUT ∨ gate.gate_type = GateType.AND) :
    ∀ r, assign fuel s label false = some r → r.2 = AssignmentStatus.OK := by
  intro r h
  unfold assign at h
  cases ha : assignAndPropagate fuel s label false with
  | none => rw [ha] at h; cases h
  | some p =>
    rw [ha] at h
    obtain ⟨ps, pst⟩ := p
    have hok : pst = AssignmentStatus.OK :=
      assignAndPropagate_false_status fuel s label gate hg ht (ps, pst) ha
    subst hok
    simp only [bind, Option.bind] at h
    simp only [ne_eq, not_true_eq_false, if_false] at h
    cases hs : instSimplify ps with
    | none => rw [hs] at h; cases h
    | some s'' =>
      rw [hs] at h
      cases h
      rfl

/-- The premise the claim takes for granted: both polarities of a (deep copy
of) the instance conflict on `label`. -/
def BothPolaritiesConflict (fuel : Nat) (s : Inst) (label : Label) : Prop :=
  (∃ r, assign fuel s label false = some r ∧ r.2 = AssignmentStatus.CONFLICT) ∧
  (∃ r, assign fuel s label true = some r ∧ r.2 = AssignmentStatus.CONFLICT)

/-- C10 counterexample: the claim's scenario is unreachable — there is no
instance and no branchable gate (INPUT or AND, the only types
`_rank_candidates` keeps) on which both polarities of `assign` conflict,
because the False polarity (tested first by `_weight_gate`) never returns
CONFLICT on such a gate. -/
theorem c10_counterexample :
    (∃ fuel s label gate, s.circuit.get_gate label = some gate ∧
      (gate.gate_type = GateType.INPUT ∨ gate.gate_type = GateType.AND) ∧
      BothPolaritiesConflict fuel s label) = False := by
  simp only [eq_iff_iff, iff_false]
  rintro ⟨fuel, s, label, gate, hg, ht, ⟨⟨r, hr, hst⟩, -⟩⟩
  have hok := assign_false_status fuel s label gate hg ht r hr
  rw [hok] at hst
  cases hst

theorem insertDesc_mem (a x : Int × Label) (ys : List (Int × Label)) :
    a ∈ insertDesc x ys ↔ a = x ∨ a ∈ ys := by
  induction ys with
  | nil => simp [insertDesc]
  | cons y ys ih =>
    rw [insertDesc]
    by_cases hc : y.1 ≥ x.1
    · rw [if_pos hc]
      simp only [List.mem_cons, ih]
      tauto
    · rw [if_neg hc]
      simp only [List.mem_cons]

theorem sortDesc_mem (a : Int × Label) (xs : List (Int × Label)) :
    a ∈ sortDesc xs ↔ a ∈ xs := by
  have hgen : ∀ (ys : List (Int × Label)) (acc : List (Int × Label)),
      a ∈ ys.foldl (fun acc x => insertDesc x acc) acc ↔ a ∈ acc ∨ a ∈ ys := by
    intro ys
    induction ys with
    | nil => simp
    | cons y ys ih =>
      intro acc
      rw [List.foldl_cons, ih, insertDesc_mem]
      simp only [List.mem_cons]
      tauto
  rw [sortDesc, hgen]
  simp

/-- Every entry of the score list produced by the `_rank_candidates` fold
names a gate of the circuit whose type is INPUT or AND. -/
theorem rankFold_mem (c : Circuit) :
    ∀ (gs : List (Label × Gate)) (acc scores : List (Int × Label)),
      gs.foldlM (rankStep c) acc = some scores →
      ∀ sc l, (sc, l) ∈ scores → (sc, l) ∈ acc ∨
        ∃ g, (l, g) ∈ gs ∧
          (g.gate_type = GateType.INPUT ∨ g.gate_type = GateType.AND) := by
  intro gs
  induction gs with
  | nil =>
    intro acc scores h sc l hm
    simp only [List.foldlM_nil] at h
    cases h
    exact Or.inl hm
  | cons p rest ih =>
    intro acc scores h sc l hm
    rw [List.foldlM_cons] at h
    cases hstep : rankStep c acc p with
    | none => rw [hstep] at h; cases h
    | some acc' =>
      rw [hstep] at h
      simp only [bind, Option.bind] at h
      have hsub := ih acc' scores (by simpa [bind, Option.bind] using h) sc l hm
      rcases hsub with hin | ⟨g, hg, htyp⟩
      · -- entry already in `acc'`: analyze the step
        unfold rankStep at hstep
        rcases p with ⟨pl, pg⟩
        rcases hgt : pg.gate_type with _ | _ | _ | _ | _ <;> rw [hgt] at hstep
        · -- INPUT
          cases hsc : gateScore c pl pg with
          | none => rw [hsc] at hstep; cases hstep
          | some score =>
            rw [hsc] at hstep
            simp only [bind, Option.bind, Option.pure_def, Option.some.injEq] at hstep
            have : (sc, l) ∈ acc ++ [(score, pl)] := by
              rw [← hstep] at hin
              simpa using hin
            rcases List.mem_append.mp this with hacc | hnew
            · exact Or.inl hacc
            · simp only [List.mem_singleton, Prod.mk.injEq] at hnew
              exact Or.inr ⟨pg, by simp [hnew.2], Or.inl hgt⟩
        · -- AND
          cases hsc : gateScore c pl pg with
          | none => rw [hsc] at hstep; cases hstep
          | some score =>
            rw [hsc] at hstep
            simp only [bind, Option.bind, Option.pure_def, Option.some.injEq] at hstep
            have : (sc, l) ∈ acc ++ [(score, pl)] := by
              rw [← hstep] at hin
              simpa using hin
            rcases List.mem_append.mp this with hacc | hnew
            · exact Or.inl hacc
            · simp only [List.mem_singleton, Prod.mk.injEq] at hnew
              exact Or.inr ⟨pg, by simp [hnew.2], Or.inr hgt⟩
        · -- NOT: acc unchanged
          cases hstep
          exact Or.inl hin
        · cases hstep
          exact Or.inl hin
        · cases hstep
          exact Or.inl hin
      · exact Or.inr ⟨g, List.mem_cons_of_mem _ hg, htyp⟩

/-- Every candidate `_rank_candidates` returns is an INPUT or AND gate of the
circuit. -/
theorem rankCandidates_mem (limit : Nat) (inst : Inst) (cands : List Label)
    (h : rankCandidates limit inst = some cands) :
    ∀ l ∈ cands, ∃ g, (l, g) ∈ inst.circuit.gates ∧
      (g.gate_type = GateType.INPUT ∨ g.gate_type = GateType.AND) := by
  intro l hl
  unfold rankCandidates at h
  cases hf : inst.circuit.gates.foldlM (rankStep inst.circuit) [] with
  | none => rw [hf] at h; cases h
  | some scores =>
    rw [hf] at h
    simp only [bind, Option.bind, Option.pure_def, Option.some.injEq] at h
    rw [← h] at hl
    obtain ⟨⟨sc, l'⟩, hmem, hsnd⟩ := List.mem_map.mp hl
    have hsnd' : l' = l := hsnd
    subst hsnd'
    have htake : (sc, l') ∈ (sortDesc scores).take limit := hmem
    have hsort : (sc, l') ∈ sortDesc scores := List.take_subset _ _ htake
    have hscores : (sc, l') ∈ scores := (sortDesc_mem _ _).mp hsort
    rcases rankFold_mem inst.circuit _ _ _ hf sc l' hscores with hacc | hok
    · cases hacc
    · exact hok

/-- A forced selection returned by the `_select_gate` loop comes from a
candidate whose `_weight_gate` reported that forced value. -/
theorem selectLoop_forced (inst : Inst) :
    ∀ (cands : List Label) (best : Option Label) (bw : Int)
      (sel : CubeGateSelection) (v : Bool),
      selectLoop inst cands best bw = some (some sel) → sel.forced_value = some v →
      ∃ l, l ∈ cands ∧ sel.label = l ∧
        ∃ wr, weightGate inst l = some wr ∧ wr.forced_value = some v := by
  intro cands
  induction cands with
  | nil =>
    intro best bw sel v h hf
    cases best with
    | none => simp [selectLoop] at h
    | some l =>
      simp only [selectLoop, Option.some.injEq] at h
      rw [← h] at hf
      cases hf
  | cons l rest ih =>
    intro best bw sel v h hf
    rw [selectLoop] at h
    cases hw : weightGate inst l with
    | none => rw [hw] at h; cases h
    | some wr =>
      rw [hw] at h
      simp only [bind, Option.bind] at h
      cases hwf : wr.forced_value with
      | some v' =>
        rw [hwf] at h
        simp only [Option.some.injEq] at h
        rw [← h] at hf
        simp only at hf
        injection hf with hf
        subst hf
        exact ⟨l, List.mem_cons_self _ _, by rw [← h], wr, hw, hwf⟩
      | none =>
        rw [hwf] at h
        cases hww : wr.weight with
        | none => rw [hww] at h; cases h
        | some w =>
          rw [hww] at h
          simp only at h
          by_cases hgt : w > bw
          · rw [if_pos hgt] at h
            obtain ⟨l', hl', hlab, hrest⟩ := ih _ _ _ _ h hf
            exact ⟨l', List.mem_cons_of_mem _ hl', hlab, hrest⟩
          · rw [if_neg hgt] at h
            obtain ⟨l', hl', hlab, hrest⟩ := ih _ _ _ _ h hf
            exact ⟨l', List.mem_cons_of_mem _ hl', hlab, hrest⟩

/-- If `_weight_gate` reports forced value `true`, then the False polarity of
the lookahead assignment completed with a non-OK status. -/
theorem weightGate_forced_true (inst : Inst) (l : Label) (wr : GateWeightResult)
    (h : weightGate inst l = some wr) (hf : wr.forced_value = some true) :
    ∃ r, assign (defaultFuel inst) inst l false = some r ∧
      r.2 ≠ AssignmentStatus.OK := by
  unfold weightGate at h
  cases h0 : assign (defaultFuel inst) inst l false with
  | none => rw [h0] at h; cases h
  | some p0 =>
    rw [h0] at h
    obtain ⟨s0, st0⟩ := p0
    simp only [bind, Option.bind, Option.pure_def] at h
    by_cases hs0 : st0 ≠ AssignmentStatus.OK
    · exact ⟨(s0, st0), rfl, hs0⟩
    · rw [if_neg hs0] at h
      split at h
      · cases h
      · cases h1 : assign (defaultFuel inst) inst l true with
        | none => rw [h1] at h; cases h
        | some p1 =>
          rw [h1] at h
          obtain ⟨s1, st1⟩ := p1
          simp only [bind, Option.bind, Option.pure_def] at h
          by_cases hs1 : st1 ≠ AssignmentStatus.OK
          · rw [if_pos hs1] at h
            cases h
            cases hf
          · rw [if_neg hs1] at h
            split at h
            · cases h
            · cases h
              cases hf

/-- C10 (amended): the status `_cube` discards when applying a forced value is
always OK.  `_weight_gate` tests the False polarity first; a False assignment
to a candidate (always an INPUT or AND gate) never conflicts, so the forced
value is always False — arising from a conflicting True polarity — and the
in-place application of that False assignment succeeds.  No instance with
both polarities conflicting exists, and the driver never cubes an instance
whose forced assignment conflicted. -/
theorem c10_forced_value_false (limit : Nat) (inst : Inst)
    (sel : CubeGateSelection) (v : Bool)
    (hnd : (inst.circuit.gates.map (·.1)).Nodup)
    (hsel : selectGate limit inst = some (some sel))
    (hforced : sel.forced_value = some v) :
    v = false ∧
      ∀ r, assign (defaultFuel inst) inst sel.label v = some r →
        r.2 = AssignmentStatus.OK := by
  unfold selectGate at hsel
  cases hrc : rankCandidates limit inst with
  | none => rw [hrc] at hsel; cases hsel
  | some cands =>
    rw [hrc] at hsel
    simp only [bind, Option.bind] at hsel
    by_cases hempty : cands.isEmpty
    · rw [if_pos hempty] at hsel
      cases hsel
    · rw [if_neg hempty] at hsel
      obtain ⟨l, hlc, hlab, wr, hwg, hwf⟩ :=
        selectLoop_forced inst cands none 0 sel v hsel hforced
      obtain ⟨g, hmem, htype⟩ := rankCandidates_mem limit inst cands hrc l hlc
      have hget : inst.circuit.get_gate l = some g := lookupA_of_mem_nodup hnd hmem
      have hv : v = false := by
        cases v
        · rfl
        · obtain ⟨r, hr, hne⟩ := weightGate_forced_true inst l wr hwg hwf
          exact absurd (assign_false_status (defaultFuel inst) inst l g hget htype r hr) hne
      subst hv
      refine ⟨rfl, ?_⟩
      intro r hr
      rw [hlab] at hr
      exact assign_false_status (defaultFuel inst) inst l g hget htype r hr

/-! ## A concrete circuit whose cube step takes the forced branch

`out = AND(a, NOT(AND(AND(x, NOT x), c)))` over inputs `a`, `c`, `x`.  After
`from_circuit` fixes the output to true, the surviving gate `g = AND(x, NOT x)`
is a candidate whose True polarity conflicts during lookahead, so
`_select_gate` returns the forced selection `g := False`. -/
def forcedBranchCircuit : Circuit :=
  { gates := [("a", ⟨"a", GateType.INPUT, []⟩), ("c", ⟨"c", GateType.INPUT, []⟩),
              ("x", ⟨"x", GateType.INPUT, []⟩), ("nx", ⟨"nx", GateType.NOT, ["x"]⟩),
              ("g", ⟨"g", GateType.AND, ["x", "nx"]⟩),
              ("m", ⟨"m", GateType.AND, ["g", "c"]⟩),
              ("n", ⟨"n", GateType.NOT, ["m"]⟩),
              ("out", ⟨"out", GateType.AND, ["a", "n"]⟩)],
    inputs := ["a", "c", "x"], outputs := ["out"],
    users := [("a", ["out"]), ("c", ["m"]), ("x", ["nx", "g"]), ("nx", ["g"]),
              ("g", ["m"]), ("m", ["n"]), ("n", ["out"]), ("out", [])] }

/-- The instance `CircuitSatInstance.from_circuit` builds for
`forcedBranchCircuit` (checked against the pipeline by
`forcedBranchInst_fromCircuit`). -/
def forcedBranchInst : Inst :=
  { circuit :=
      ⟨[("c", ⟨"c", GateType.INPUT, []⟩), ("x", ⟨"x", GateType.INPUT, []⟩),
        ("nx", ⟨"nx", GateType.NOT, ["x"]⟩), ("g", ⟨"g", GateType.AND, ["x", "nx"]⟩)],
       ["c", "x"], [],
       [("c", []), ("x", ["nx", "g"]), ("nx", ["g"]), ("g", [])]⟩
    cnf := ⟨[[3, 4], [-3, -4], [3, -5], [4, -5], [5, -3, -4], [5, -6], [2, -6],
             [6, -5, -2], [6, 7], [-6, -7], [1, -8], [7, -8], [8, -1, -7], [8],
             [8], [1], [7], [-6], [-5, -2]],
            [("a", 1), ("c", 2), ("x", 3), ("nx", 4), ("g", 5), ("m", 6),
             ("n", 7), ("out", 8)]⟩
    gates_config :=
      [("a", ⟨"a", some 1, true, some true⟩), ("c", ⟨"c", some 2, true, none⟩),
       ("x", ⟨"x", some 3, true, none⟩), ("nx", ⟨"nx", some 4, false, none⟩),
       ("g", ⟨"g", some 5, false, none⟩), ("m", ⟨"m", some 6, false, none⟩),
       ("n", ⟨"n", some 7, false, none⟩), ("out", ⟨"out", some 8, false, none⟩)] }

/-- `forcedBranchInst` really is what the construction pipeline produces. -/
theorem forcedBranchInst_fromCircuit :
    fromCircuit forcedBranchCircuit = some (some forcedBranchInst) := by decide

/-- Witness for C10 at the concrete forced selection on `forcedBranchInst`:
gate selection returns the forced selection `g := False`, and every completed
application of that assignment has status OK. -/
theorem c10_witness :
    false = false ∧
      ∀ r, assign (defaultFuel forcedBranchInst) forcedBranchInst "g" false = some r →
        r.2 = AssignmentStatus.OK :=
  c10_forced_value_false 10 forcedBranchInst ⟨"g", some false⟩ false
    (by decide) (by decide) rfl

/-! ## Claim C6: forced branches and the depth counter -/

/-- C6 counterexample: on `forcedBranchInst` gate selection is forced
(`g := False`), and with `max_depth = 1` the source recursion `_cube` —
which passes `depth + 1` also on the forced path — produces one cube, while
the recursion described by the claim (`cubeSpecForced`, identical except that
the forced path keeps the same depth) produces two.  The source therefore
does consume a depth level on a forced branch, contradicting the claim. -/
theorem c6_counterexample :
    selectGate 10 forcedBranchInst = some (some ⟨"g", some false⟩) ∧
      (cubeRec 1 10 4 forcedBranchInst 0).map List.length = some 1 ∧
      (cubeSpecForced 1 10 4 forcedBranchInst 0).map List.length = some 2 := by
  refine ⟨by decide, by decide, by decide⟩

/-- C6 (amended): a forced branch consumes a depth level — when gate selection
returns a forced value, `_cube` applies the assignment in place (discarding
its status) and recurses at `depth + 1`. -/
theorem c6_forced_consumes_depth (maxDepth limit fuel : Nat) (inst : Inst)
    (depth : Nat) (sel : CubeGateSelection) (v : Bool)
    (hstop : shouldStop maxDepth inst depth = false)
    (hsel : selectGate limit inst = some (some sel))
    (hforced : sel.forced_value = some v) :
    cubeRec maxDepth limit (fuel + 1) inst depth =
      (assign (defaultFuel inst) inst sel.label v).bind
        (fun r => cubeRec maxDepth limit fuel r.1 (depth + 1)) := by
  rw [cubeRec, if_neg (by rw [hstop]; exact Bool.false_ne_true), hsel]
  simp only [bind, Option.bind, hforced]

/-- Witness for the amended C6 at the concrete forced instance. -/
theorem c6_witness :
    cubeRec 1 10 4 forcedBranchInst 0 =
      (assign (defaultFuel forcedBranchInst) forcedBranchInst "g" false).bind
        (fun r => cubeRec 1 10 3 r.1 1) :=
  c6_forced_consumes_depth 1 10 3 forcedBranchInst 0 ⟨"g", some false⟩ false
    (by decide) (by decide) rfl

/-! ## Claim C7: model reconstruction in `conquer` -/

/-- `out = NOT(AND(NOT x, NOT y))` (an OR of two inputs): after `from_circuit`
fixes the output, both inputs stay unassigned, so a `max_depth = 0` cube
reaches `conquer` with `value = None` on both input entries. -/
def orCircuit : Circuit :=
  { gates := [("x", ⟨"x", GateType.INPUT, []⟩), ("y", ⟨"y", GateType.INPUT, []⟩),
              ("nx", ⟨"nx", GateType.NOT, ["x"]⟩), ("ny", ⟨"ny", GateType.NOT, ["y"]⟩),
              ("g", ⟨"g", GateType.AND, ["nx", "ny"]⟩),
              ("out", ⟨"out", GateType.NOT, ["g"]⟩)],
    inputs := ["x", "y"], outputs := ["out"],
    users := [("x", ["nx"]), ("y", ["ny"]), ("nx", ["g"]), ("ny", ["g"]),
              ("g", ["out"]), ("out", [])] }

/-- The instance `from_circuit` builds for `orCircuit` (checked against the
pipeline inside `c7_unassigned_input_negated`). -/
def orInst : Inst :=
  { circuit :=
      ⟨[("x", ⟨"x", GateType.INPUT, []⟩), ("y", ⟨"y", GateType.INPUT, []⟩),
        ("nx", ⟨"nx", GateType.NOT, ["x"]⟩), ("ny", ⟨"ny", GateType.NOT, ["y"]⟩)],
       ["x", "y"], [],
       [("x", ["nx"]), ("y", ["ny"]), ("nx", []), ("ny", [])]⟩
    cnf := ⟨[[1, 3], [-1, -3], [2, 4], [-2, -4], [3, -5], [4, -5], [5, -3, -4],
             [5, 6], [-5, -6], [6], [6], [-5], [-3, -4]],
            [("x", 1), ("y", 2), ("nx", 3), ("ny", 4), ("g", 5), ("out", 6)]⟩
    gates_config :=
      [("x", ⟨"x", some 1, true, none⟩), ("y", ⟨"y", some 2, true, none⟩),
       ("nx", ⟨"nx", some 3, false, none⟩), ("ny", ⟨"ny", some 4, false, none⟩),
       ("g", ⟨"g", some 5, false, none⟩), ("out", ⟨"out", some 6, false, none⟩)] }

/-- An external backend answering SAT with a full model, as `is_satisfiable`
would (modelled from the spec's backend interface). -/
def satOracle : Cnf → PySatResult := fun _ => ⟨true, some [1, 2, 3, 4, 5, 6]⟩

/-- C7 (code bug): on the first SAT cube of `orCircuit` — produced by the
pipeline itself, with `max_depth = 0` so both inputs are unassigned
(`value = None`, third and fourth conjuncts) — `conquer` places `-v` at the
slots of the unassigned inputs instead of the zero the claim (and spec
section 4.5) require: the loop writes `gc.idx if gc.value else -gc.idx`, and
Python truthiness sends `value = None` to the `-gc.idx` arm.  The returned
"model" asserts x = false, y = false, which falsifies this cube's CNF (clause
`[-3, -4]` together with `[1, 3]` and `[2, 4]`), so the partial certificate is
not sound. -/
theorem c7_unassigned_input_negated :
    fromCircuit orCircuit = some (some orInst) ∧
      cubeRec 0 10 1 orInst 0 = some [orInst] ∧
      lookupA orInst.gates_config "x" = some ⟨"x", some 1, true, none⟩ ∧
      lookupA orInst.gates_config "y" = some ⟨"y", some 2, true, none⟩ ∧
      conquer satOracle [orInst] = some ⟨true, some [-1, -2, 0, 0, 0, 0]⟩ := by
  refine ⟨by decide, by decide, by decide, by decide, by decide⟩

/-! ## Claim C4: deep copy isolates branches

Python mutates the instance's components in place (`self.cnf._cnf.append`,
`self.circuit._gates[label] = ...`, `self.gates_config[label].value = ...`)
and rebinds `self.circuit`, so sharing between two instances would leak
assignments across branches.  To state the frame property we model the heap
explicitly: a store of numbered cells, an instance as a cell pointing at its
circuit, CNF and `gates_config` cells, `copy.deepcopy` as allocation of fresh
cells, and `assign` as mutation through the instance's own cells. -/

/-- A heap object: an instance header (three cell addresses) or one of the
three mutable components, held as the pure values already defined above. -/
inductive PyObj where
  | instO (circuitA cnfA gcA : Nat)
  | circO (c : Circuit)
  | cnfO (f : Cnf)
  | gcO (g : List (Label × GateConfig))

/-- A store: an allocation counter and cell contents. -/
structure Store where
  next : Nat
  mem : Nat → Option PyObj

/-- Overwrite a cell in place. -/
def Store.write (s : Store) (a : Nat) (o : PyObj) : Store :=
  { s with mem := fun x => if x = a then some o else s.mem x }

/-- Allocate a fresh cell. -/
def Store.alloc (s : Store) (o : PyObj) : Store × Nat :=
  ({ next := s.next + 1, mem := fun x => if x = s.next then some o else s.mem x },
    s.next)

/-- The observable value of an instance: its circuit, CNF and `gates_config`
read through the heap. -/
def readInst (s : Store) (a : Nat) :
    Option (Circuit × Cnf × List (Label × GateConfig)) :=
  match s.mem a with
  | some (PyObj.instO ca na ga) =>
    match s.mem ca, s.mem na, s.mem ga with
    | some (PyObj.circO c), some (PyObj.cnfO f), some (PyObj.gcO g) => some (c, f, g)
    | _, _, _ => none
  | _ => none

/-- `copy.deepcopy(instance)`: duplicate the circuit, the CNF clause list and
the `gates_config` map into fresh cells and return a fresh instance header —
no cell of the original is shared. -/
def deepcopyInst (s : Store) (a : Nat) : Option (Store × Nat) :=
  match s.mem a with
  | some (PyObj.instO ca na ga) =>
    match s.mem ca, s.mem na, s.mem ga with
    | some (PyObj.circO c), some (PyObj.cnfO f), some (PyObj.gcO g) =>
      let r1 := s.alloc (PyObj.circO c)
      let r2 := r1.1.alloc (PyObj.cnfO f)
      let r3 := r2.1.alloc (PyObj.gcO g)
      let r4 := r3.1.alloc (PyObj.instO r1.2 r2.2 r3.2)
      some (r4.1, r4.2)
    | _, _, _ => none
  | _ => none

/-- `instance.assign(label, value)` acting on the heap: read the instance's
components, run the pure `assign`, then write the new clause list and
`gates_config` back through the instance's own cells, allocate a cell for the
rebound circuit and update the header. -/
def assignS (fuel : Nat) (s : Store) (a : Nat) (label : Label) (value : Bool) :
    Option (Store × AssignmentStatus) :=
  match s.mem a with
  | some (PyObj.instO ca na ga) =>
    match s.mem ca, s.mem na, s.mem ga with
    | some (PyObj.circO c), some (PyObj.cnfO f), some (PyObj.gcO g) =>
      match assign fuel ⟨c, f, g⟩ label value with
      | none => none
      | some (r, st) =>
        let s1 := s.write na (PyObj.cnfO r.cnf)
        let s2 := s1.write ga (PyObj.gcO r.gates_config)
        let r3 := s2.alloc (PyObj.circO r.circuit)
        let s4 := r3.1.write a (PyObj.instO r3.2 na ga)
        some (s4, st)
    | _, _, _ => none
  | _ => none

/-- A sequence of `assign` calls on one instance, statuses ignored. -/
def applyAssignsS (fuel : Nat) : List (Label × Bool) → Store → Nat → Option Store
  | [], s, _ => some s
  | (l, v) :: rest, s, a =>
    match assignS fuel s a l v with
    | none => none
    | some (s', _) => applyAssignsS fuel rest s' a

/-- The copy's cells all live at or above the watermark `N` (the original
store's allocation counter at copy time). -/
def CopyAbove (N : Nat) (s : Store) (b : Nat) : Prop :=
  N ≤ s.next ∧ N ≤ b ∧
    ∃ cb nb gb, s.mem b = some (PyObj.instO cb nb gb) ∧
      N ≤ cb ∧ N ≤ nb ∧ N ≤ gb

theorem assignS_frame (N fuel : Nat) (s : Store) (b : Nat) (l : Label) (v : Bool)
    (hc : CopyAbove N s b) (s' : Store) (st : AssignmentStatus)
    (h : assignS fuel s b l v = some (s', st)) :
    CopyAbove N s' b ∧ ∀ x, x < N → s'.mem x = s.mem x := by
  obtain ⟨hnext, hbN, cb, nb, gb, hmb, hcb, hnb, hgb⟩ := hc
  rw [assignS, hmb] at h
  simp only at h
  cases hcc : s.mem cb with
  | none => rw [hcc] at h; simp at h
  | some oc =>
    rw [hcc] at h
    cases oc with
    | instO _ _ _ => simp at h
    | cnfO _ => simp at h
    | gcO _ => simp at h
    | circO c =>
      cases hcn : s.mem nb with
      | none => simp [hcn] at h
      | some onv =>
        cases hcg : s.mem gb with
        | none => cases onv <;> simp [hcn, hcg] at h
        | some ogv =>
          cases onv <;> cases ogv <;> simp only [hcn, hcg] at h <;> try simp at h
          rename_i f g
          cases ha : assign fuel ⟨c, f, g⟩ l v with
          | none => rw [ha] at h; cases h
          | some p =>
            rw [ha] at h
            obtain ⟨r, rst⟩ := p
            simp only at h
            cases h
            constructor
            · refine ⟨by simp [Store.write, Store.alloc]; omega, hbN,
                s.next, nb, gb, ?_, by omega, hnb, hgb⟩
              simp [Store.write, Store.alloc]
            · intro x hx
              have hxb : x ≠ b := by omega
              have hxn : x ≠ nb := by omega
              have hxg : x ≠ gb := by omega
              have hxf : x ≠ s.next := by omega
              simp [Store.write, Store.alloc, hxb, hxn, hxg, hxf]

theorem applyAssignsS_frame (N fuel : Nat) :
    ∀ (asgs : List (Label × Bool)) (s : Store) (b : Nat),
      CopyAbove N s b → ∀ s2, applyAssignsS fuel asgs s b = some s2 →
        ∀ x, x < N → s2.mem x = s.mem x := by
  intro asgs
  induction asgs with
  | nil =>
    intro s b _ s2 h x hx
    cases h
    rfl
  | cons p rest ih =>
    intro s b hc s2 h x hx
    obtain ⟨l, v⟩ := p
    rw [applyAssignsS] at h
    cases ha : assignS fuel s b l v with
    | none => rw [ha] at h; cases h
    | some q =>
      rw [ha] at h
      obtain ⟨s', st⟩ := q
      simp only at h
      obtain ⟨hc', hframe⟩ := assignS_frame N fuel s b l v hc s' st ha
      rw [ih s' b hc' s2 h x hx]
      exact hframe x hx

/-- C4: deep-copying an instance and applying any sequence of `assign` calls
to the copy leaves the original instance unchanged — its circuit, its CNF
clause list and its `gates_config` map read back exactly as before, because
the copy duplicates all three components into fresh cells and assignment
writes only through the copy's own cells. -/
theorem c4_deepcopy_frame (fuel : Nat) (s : Store) (a ca na ga : Nat)
    (c : Circuit) (f : Cnf) (g : List (Label × GateConfig))
    (ha : s.mem a = some (PyObj.instO ca na ga))
    (hc : s.mem ca = some (PyObj.circO c)) (hn : s.mem na = some (PyObj.cnfO f))
    (hg : s.mem ga = some (PyObj.gcO g))
    (hb : a < s.next) (hca : ca < s.next) (hna : na < s.next) (hga : ga < s.next)
    (s1 : Store) (b : Nat) (hd : deepcopyInst s a = some (s1, b))
    (asgs : List (Label × Bool)) (s2 : Store)
    (happ : applyAssignsS fuel asgs s1 b = some s2) :
    readInst s2 a = readInst s a ∧ readInst s a = some (c, f, g) := by
  rw [deepcopyInst, ha] at hd
  simp only at hd
  rw [hc, hn, hg] at hd
  simp only [Option.some.injEq, Prod.mk.injEq] at hd
  obtain ⟨hs1, hbv⟩ := hd
  have hcopy : CopyAbove s.next s1 b := by
    rw [← hs1, ← hbv]
    refine ⟨by simp [Store.alloc]; omega, by simp [Store.alloc]; omega, s.next,
      s.next + 1, s.next + 2, ?_, by omega, by omega, by omega⟩
    simp [Store.alloc]
  have hframe := applyAssignsS_frame s.next fuel asgs s1 b hcopy s2 happ
  have hs1low : ∀ x, x < s.next → s1.mem x = s.mem x := by
    intro x hx
    rw [← hs1]
    have h0 : x ≠ s.next := by omega
    have h1 : x ≠ s.next + 1 := by omega
    have h2 : x ≠ s.next + 2 := by omega
    have h3 : x ≠ s.next + 3 := by omega
    simp [Store.alloc, h0, h1, h2, h3]
  have hmem : ∀ x, x < s.next → s2.mem x = s.mem x := by
    intro x hx
    rw [hframe x hx, hs1low x hx]
  have hread : readInst s a = some (c, f, g) := by
    rw [readInst, ha]
    simp only
    rw [hc, hn, hg]
  refine ⟨?_, hread⟩
  rw [hread, readInst, hmem a hb, ha]
  simp only
  rw [hmem ca hca, hc, hmem na hna, hn, hmem ga hga, hg]

/-- A concrete four-cell store holding `c2inst` as an instance. -/
def mkStore (objs : List PyObj) : Store :=
  { next := objs.length, mem := fun x => objs.get? x }

def c4store : Store :=
  mkStore [PyObj.circO c2inst.circuit, PyObj.cnfO c2inst.cnf,
    PyObj.gcO c2inst.gates_config, PyObj.instO 0 1 2]

/-- The store and address produced by deep-copying the instance at cell 3. -/
def c4copy : Store × Nat := (deepcopyInst c4store 3).getD (c4store, 0)

/-- The store after assigning `g := False` on the copy. -/
def c4after : Store := (applyAssignsS 4 [("g", false)] c4copy.1 c4copy.2).getD c4store

/-- Witness for C4: after copying the concrete instance and assigning on the
copy, the original cell still reads back as `c2inst`. -/
theorem c4_witness :
    readInst c4after 3 = readInst c4store 3 ∧
      readInst c4store 3 = some (c2inst.circuit, c2inst.cnf, c2inst.gates_config) :=
  c4_deepcopy_frame 4 c4store 3 0 1 2 c2inst.circuit c2inst.cnf c2inst.gates_config
    rfl rfl rfl rfl (by decide) (by decide) (by decide) (by decide)
    c4copy.1 c4copy.2 rfl [("g", false)] c4after rfl

/-! ## Claim C5: idempotence of `RemoveConstantGates` -/

/-- Rebuild a circuit by emplacing every gate of a table in order, starting
from the empty circuit — the canonical form of every circuit `_transform`
produces. -/
def rebuild (gs : List (Label × Gate)) : Circuit :=
  gs.foldl (fun acc p => acc.emplace_gate p.1 p.2.gate_type p.2.operands)
    Circuit.empty

/-- The invariant run 1 of `_transform` maintains on its output circuit: it is
canonical (equal to the rebuild of its own gate table, so keys match labels
and the user index is the one `emplace_gate` derives), and every gate is
non-constant with at most two operands. -/
def RcgOut (c : Circuit) : Prop :=
  rebuild c.gates = c ∧
    ∀ p ∈ c.gates, p.2.label = p.1 ∧
      p.2.gate_type ≠ GateType.ALWAYS_TRUE ∧
      p.2.gate_type ≠ GateType.ALWAYS_FALSE ∧ p.2.operands.length ≤ 2

theorem rebuild_append_one (gs : List (Label × Gate)) (l : Label) (t : GateType)
    (ops : List Label) :
    rebuild (gs ++ [(l, ⟨l, t, ops⟩)]) = (rebuild gs).emplace_gate l t ops := by
  simp [rebuild, List.foldl_append]

theorem RcgOut.emplace {c : Circuit} (h : RcgOut c) (l : Label) (t : GateType)
    (ops : List Label) (ht1 : t ≠ GateType.ALWAYS_TRUE)
    (ht2 : t ≠ GateType.ALWAYS_FALSE) (hlen : ops.length ≤ 2) :
    RcgOut (c.emplace_gate l t ops) := by
  obtain ⟨hcan, hall⟩ := h
  constructor
  · show rebuild (c.gates ++ [(l, ⟨l, t, ops⟩)]) = _
    rw [rebuild_append_one, hcan]
  · intro p hp
    rcases List.mem_append.mp hp with hp | hp
    · exact hall p hp
    · simp only [List.mem_singleton] at hp
      subst hp
      exact ⟨rfl, ht1, ht2, hlen⟩

/-- One run-1 step preserves the invariant. -/
theorem rcgStep_out {st st' : RcgState} {g : Gate}
    (h : rcgStep st g = some st') (hlen : g.operands.length ≤ 2)
    (hinv : RcgOut st.new_circuit) : RcgOut st'.new_circuit := by
  unfold rcgStep at h
  by_cases h1 : g.gate_type = GateType.INPUT
  · rw [if_pos h1] at h
    cases h
    exact hinv.emplace _ _ _ (by rw [h1]; simp) (by rw [h1]; simp) hlen
  · rw [if_neg h1] at h
    by_cases h2 : g.gate_type = GateType.ALWAYS_TRUE
    · rw [if_pos h2] at h
      cases h
      exact hinv
    · rw [if_neg h2] at h
      by_cases h3 : g.gate_type = GateType.ALWAYS_FALSE
      · rw [if_pos h3] at h
        cases h
        exact hinv
      · rw [if_neg h3] at h
        simp only at h
        split at h
        · cases h
          exact hinv.emplace _ _ _ h2 h3 (by simpa using hlen)
        · split at h
          · split at h
            · split at h
              · split at h
                · cases h
                  exact hinv
                · split at h
                  · cases h
                    exact hinv
                  · split at h
                    · split at h
                      · cases h
                        exact hinv
                      · cases h
                        exact hinv.emplace _ _ _ (by simp) (by simp) (by simp)
                    · cases h
                      exact hinv.emplace _ _ _ (by simp) (by simp) (by simp)
              · cases h
            · cases h
          · split at h
            · split at h
              · cases h
                exact hinv
              · cases h
            · cases h

/-- Run 1 of the `_transform` fold yields an invariant-satisfying circuit. -/
theorem rcgFold_out :
    ∀ (gs : List Gate) (st st' : RcgState),
      (∀ g ∈ gs, g.operands.length ≤ 2) → RcgOut st.new_circuit →
      gs.foldlM rcgStep st = some st' → RcgOut st'.new_circuit := by
  intro gs
  induction gs with
  | nil =>
    intro st st' _ hinv h
    simp only [List.foldlM_nil] at h
    cases h
    exact hinv
  | cons g rest ih =>
    intro st st' hlen hinv h
    rw [List.foldlM_cons] at h
    cases hstep : rcgStep st g with
    | none => rw [hstep] at h; cases h
    | some st1 =>
      rw [hstep] at h
      simp only [bind, Option.bind] at h
      exact ih st1 st'
        (fun g' hg' => hlen g' (List.mem_cons_of_mem _ hg'))
        (rcgStep_out hstep (hlen g (List.mem_cons_self _ _)) hinv) h

theorem map_resolveLabel_nil (ls : List Label) : ls.map (resolveLabel []) = ls := by
  induction ls with
  | nil => rfl
  | cons a as iha =>
    rw [List.map_cons, iha]
    rfl

/-- On a gate that is neither constant nor oversized, a run over an empty
`const_map` and `label_remap` just re-emplaces the gate. -/
theorem rcgStep_clean (c0 : Circuit) (g : Gate)
    (ht1 : g.gate_type ≠ GateType.ALWAYS_TRUE)
    (ht2 : g.gate_type ≠ GateType.ALWAYS_FALSE) :
    rcgStep ⟨c0, [], []⟩ g =
      some ⟨c0.emplace_gate g.label g.gate_type g.operands, [], []⟩ := by
  unfold rcgStep
  by_cases h1 : g.gate_type = GateType.INPUT
  · rw [if_pos h1, h1]
  · rw [if_neg h1, if_neg ht1, if_neg ht2]
    simp only
    rw [map_resolveLabel_nil]
    have hconst : ((List.range g.operands.length).filter
        (fun i => (lookupA ([] : List (Label × Bool)) (g.operands.getD i "")).isSome)).isEmpty := by
      simp [lookupA_nil, List.filter_eq_nil_iff]
    rw [if_pos hconst]

/-- Run 2 of the fold over a clean gate list is a plain rebuild. -/
theorem rcgFold_clean :
    ∀ (gs : List Gate) (c0 : Circuit),
      (∀ g ∈ gs, g.gate_type ≠ GateType.ALWAYS_TRUE ∧
        g.gate_type ≠ GateType.ALWAYS_FALSE) →
      gs.foldlM rcgStep (⟨c0, [], []⟩ : RcgState) =
        some ⟨gs.foldl (fun acc g => acc.emplace_gate g.label g.gate_type g.operands) c0,
          [], []⟩ := by
  intro gs
  induction gs with
  | nil =>
    intro c0 _
    simp
  | cons g rest ih =>
    intro c0 hclean
    rw [List.foldlM_cons,
      rcgStep_clean c0 g (hclean g (List.mem_cons_self _ _)).1
        (hclean g (List.mem_cons_self _ _)).2]
    simp only [bind, Option.bind]
    exact ih _ (fun g' hg' => hclean g' (List.mem_cons_of_mem _ hg'))

/-- The gate-table fold and the gate-list fold of `emplace_gate` agree when
keys match labels. -/
theorem fold_emplace_keys :
    ∀ (gs : List (Label × Gate)) (acc : Circuit),
      (∀ p ∈ gs, p.2.label = p.1) →
      (gs.map (·.2)).foldl
          (fun a g => a.emplace_gate g.label g.gate_type g.operands) acc =
        gs.foldl (fun a p => a.emplace_gate p.1 p.2.gate_type p.2.operands) acc := by
  intro gs
  induction gs with
  | nil => intro acc _; rfl
  | cons p rest ih =>
    intro acc hkeys
    rw [List.map_cons, List.foldl_cons, List.foldl_cons,
      (hkeys p (List.mem_cons_self _ _))]
    exact ih _ (fun q hq => hkeys q (List.mem_cons_of_mem _ hq))

/-- C5: the constant-propagation simplifier is idempotent — whenever
`RemoveConstantGates._transform` succeeds, running it again on its own output
returns that output unchanged (so in particular gate set, inputs and outputs
are all equal). -/
theorem c5_rcgTransform_idempotent (c c' : Circuit)
    (h : rcgTransform c = some c') : rcgTransform c' = some c' := by
  unfold rcgTransform at h
  split at h
  · cases h
  · cases hf : c.top_sort_inv.foldlM rcgStep ⟨Circuit.empty, [], []⟩ with
    | none => rw [hf] at h; cases h
    | some stF =>
      rw [hf] at h
      simp only [bind, Option.bind, Option.pure_def, Option.some.injEq] at h
      have hguard : ¬(c.gates.any fun p => decide (p.2.operands.length > 2)) = true := by
        rename_i hg
        exact hg
      have hlens : ∀ g ∈ c.top_sort_inv, g.operands.length ≤ 2 := by
        intro g hg
        rw [Circuit.top_sort_inv] at hg
        obtain ⟨p, hp, hpe⟩ := List.mem_map.mp hg
        by_contra hlen
        exact hguard (List.any_eq_true.mpr ⟨p, hp, by simp [hpe]; omega⟩)
      have hout : RcgOut stF.new_circuit :=
        rcgFold_out c.top_sort_inv ⟨Circuit.empty, [], []⟩ stF hlens
          ⟨rfl, by intro p hp; cases hp⟩ hf
      obtain ⟨hcan, hall⟩ := hout
      -- the output circuit
      have hc' : c' = (stF.new_circuit.set_inputs
          (c.inputs.filter (fun l => (lookupA stF.const_map l).isNone))).set_outputs
          ((c.outputs.map (resolveLabel stF.label_remap)).filter
            (fun l => (lookupA stF.const_map l).isNone)) := h.symm
      have hgates : c'.gates = stF.new_circuit.gates := by rw [hc']; rfl
      have husers : c'.users = stF.new_circuit.users := by rw [hc']; rfl
      -- run 2
      unfold rcgTransform
      have hguard2 : (c'.gates.any fun p => decide (p.2.operands.length > 2)) = false := by
        rw [List.any_eq_false]
        intro p hp
        rw [hgates] at hp
        have := (hall p hp).2.2.2
        simp
        omega
      rw [if_neg (by rw [hguard2]; exact Bool.false_ne_true)]
      have hclean : ∀ g ∈ c'.top_sort_inv,
          g.gate_type ≠ GateType.ALWAYS_TRUE ∧ g.gate_type ≠ GateType.ALWAYS_FALSE := by
        intro g hg
        rw [Circuit.top_sort_inv, hgates] at hg
        obtain ⟨p, hp, hpe⟩ := List.mem_map.mp hg
        have := hall p hp
        rw [← hpe]
        exact ⟨this.2.1, this.2.2.1⟩
      rw [rcgFold_clean c'.top_sort_inv Circuit.empty hclean]
      simp only [bind, Option.bind, Option.pure_def, Option.some.injEq]
      -- the rebuilt circuit equals the previous output circuit
      have hkeys : ∀ p ∈ c'.gates, p.2.label = p.1 := by
        intro p hp
        rw [hgates] at hp
        exact (hall p hp).1
      have hbuild : c'.top_sort_inv.foldl
          (fun a g => a.emplace_gate g.label g.gate_type g.operands) Circuit.empty =
          stF.new_circuit := by
        rw [Circuit.top_sort_inv, fold_emplace_keys c'.gates Circuit.empty hkeys,
          hgates]
        exact hcan
      rw [hbuild]
      -- inputs and outputs pass through unchanged
      have hinp : c'.inputs.filter (fun l => (lookupA ([] : List (Label × Bool)) l).isNone) =
          c'.inputs :=
        List.filter_eq_self.mpr (fun a _ => rfl)
      have houtp : (c'.outputs.map (resolveLabel [])).filter
          (fun l => (lookupA ([] : List (Label × Bool)) l).isNone) = c'.outputs := by
        rw [map_resolveLabel_nil]
        exact List.filter_eq_self.mpr (fun a _ => rfl)
      rw [hinp, houtp]
      -- assemble
      rw [hc']
      rfl

end AigCube




namespace AigCube

/-- A circuit with an ALWAYS_TRUE gate feeding an AND, used as the C5
witness input. -/
def constAndCircuit : Circuit :=
  ⟨[("x", ⟨"x", GateType.INPUT, []⟩), ("t", ⟨"t", GateType.ALWAYS_TRUE, []⟩),
    ("a", ⟨"a", GateType.AND, ["x", "t"]⟩)],
   ["x"], ["a"], [("x", ["a"]), ("t", ["a"]), ("a", [])]⟩

/-- What `RemoveConstantGates._transform` produces on `constAndCircuit`. -/
def constAndSimplified : Circuit :=
  ⟨[("x", ⟨"x", GateType.INPUT, []⟩)], ["x"], ["x"], [("x", [])]⟩

/-- Witness for C5: re-running the simplifier on the concrete output of a
successful run returns that output unchanged. -/
theorem c5_witness : rcgTransform constAndSimplified = some constAndSimplified :=
  c5_rcgTransform_idempotent constAndCircuit constAndSimplified (by decide)

end AigCube

namespace AigCube

/-! ## Claim C1: exactness of the Tseytin encoding

Loop-invariant machinery: reachability along operand edges, closure of the
saved-literal table, the stack discipline of the post-order traversal, and the
clause block each encoded gate contributes. -/

/-- Reachability from `a` to `l` along operand edges. -/
inductive Reach (c : Circuit) : Label → Label → Prop where
  | refl (l : Label) : Reach c l l
  | step {a b : Label} {g : Gate} {op : Label} :
      Reach c a b → c.get_gate b = some g → op ∈ g.operands → Reach c a op

/-- Reachable from some output root. -/
def ReachesOut (c : Circuit) (l : Label) : Prop :=
  ∃ r ∈ c.outputs, Reach c r l

/-- `x` has a saved literal. -/
def SavedP (sv : List (Label × Lit)) (x : Label) : Prop :=
  (lookupA sv x).isSome = true

/-- The saved table is closed under operand edges. -/
def ClosedC (c : Circuit) (sv : List (Label × Lit)) : Prop :=
  ∀ l, SavedP sv l → ∀ g, c.get_gate l = some g → ∀ op ∈ g.operands, SavedP sv op

/-- The stack discipline of `_process_all`: an expanded entry's operands are
saved or appear above it on the stack (each entry's label is added to the
account of the entries below it, since it will be saved by the time they are
popped). -/
def StackOK (c : Circuit) : (Label → Prop) → List (Label × Bool) → Prop
  | _, [] => True
  | S, (l, b) :: rest =>
    (b = true → ∀ g, c.get_gate l = some g → ∀ op ∈ g.operands, S op) ∧
    StackOK c (fun x => S x ∨ x = l) rest

/-- The clauses the encoder emits for label `l`, phrased over a saved table. -/
def emittedAt (c : Circuit) (sv : List (Label × Lit)) (l : Label) : List Clause :=
  match c.get_gate l with
  | some g =>
    (emitClauses g (g.operands.map (fun op => (lookupA sv op).getD 0))
      ((lookupA sv l).getD 0)).getD []
  | none => []

/-- The clause patterns of the specification, as literal multisets, with
`t = v(gate)` and operand variables taken from the map: no clauses for INPUT,
`[t]` for ALWAYS_TRUE, `[-t]` for ALWAYS_FALSE, `[a, t]` and `[-a, -t]` for
NOT(a), and `[a, -t]`, `[b, -t]`, `[-a, -b, t]` for AND(a, b). -/
def specClauses (vm : List (Label × Lit)) (l : Label) (g : Gate) :
    List (Multiset Lit) :=
  match g.gate_type, g.operands with
  | GateType.INPUT, _ => []
  | GateType.ALWAYS_TRUE, _ => [{(lookupA vm l).getD 0}]
  | GateType.ALWAYS_FALSE, _ => [{-((lookupA vm l).getD 0)}]
  | GateType.NOT, [a] =>
    [{(lookupA vm a).getD 0, (lookupA vm l).getD 0},
     {-((lookupA vm a).getD 0), -((lookupA vm l).getD 0)}]
  | GateType.AND, [a, b] =>
    [{(lookupA vm a).getD 0, -((lookupA vm l).getD 0)},
     {(lookupA vm b).getD 0, -((lookupA vm l).getD 0)},
     {-((lookupA vm a).getD 0), -((lookupA vm b).getD 0), (lookupA vm l).getD 0}]
  | _, _ => []

/-- The specified clause block of label `l`. -/
def specBlock (c : Circuit) (vm : List (Label × Lit)) (l : Label) :
    List (Multiset Lit) :=
  match c.get_gate l with
  | some g => specClauses vm l g
  | none => []

/-- A clause list as a multiset of literal multisets. -/
def clauseMS (cls : List Clause) : Multiset (Multiset Lit) :=
  ↑(cls.map (fun cl : Clause => (cl : Multiset Lit)))

theorem clauseMS_append (a b : List Clause) :
    clauseMS (a ++ b) = clauseMS a + clauseMS b := by
  simp [clauseMS]

theorem lookupA_mem {α : Type} {xs : List (Label × α)} {l : Label} {v : α}
    (h : lookupA xs l = some v) : (l, v) ∈ xs := by
  induction xs with
  | nil => cases h
  | cons p rest ih =>
    obtain ⟨k, w⟩ := p
    rw [lookupA_cons] at h
    by_cases hk : k = l
    · rw [if_pos hk] at h
      cases h
      subst hk
      exact List.mem_cons_self _ _
    · rw [if_neg hk] at h
      exact List.mem_cons_of_mem _ (ih h)

theorem nodupKeys_append_one {α : Type} {xs : List (Label × α)} {l : Label} (v : α)
    (hnd : (xs.map (·.1)).Nodup) (hl : lookupA xs l = none) :
    ((xs ++ [(l, v)]).map (·.1)).Nodup := by
  rw [List.map_append]
  apply List.Nodup.append hnd (by simp)
  intro a ha hb
  simp only [List.map_cons, List.map_nil, List.mem_singleton] at hb
  subst hb
  have := (lookupA_isSome_iff_memKeys xs a).mpr ha
  rw [hl] at this
  cases this

theorem getOrNew_hit {st : TState} {l : Label} {v : Lit}
    (h : lookupA st.saved l = some v) : getOrNew st l = (v, st) := by
  rw [getOrNew, h]

theorem getOrNew_miss {st : TState} {l : Label}
    (h : lookupA st.saved l = none) :
    getOrNew st l = (st.next + 1,
      { st with saved := st.saved ++ [(l, st.next + 1)], next := st.next + 1 }) := by
  rw [getOrNew, h]

/-- The operand-literal fold of the encode step is a pure lookup map when all
operands are already saved. -/
theorem lits_fold (st : TState) :
    ∀ (ops : List Label) (init : List Lit),
      (∀ op ∈ ops, SavedP st.saved op) →
      ops.foldl
        (fun (acc : List Lit × TState) op =>
          let r := getOrNew acc.2 op
          (acc.1 ++ [r.1], r.2)) (init, st) =
      (init ++ ops.map (fun op => (lookupA st.saved op).getD 0), st) := by
  intro ops
  induction ops with
  | nil => intro init _; simp
  | cons o rest ih =>
    intro init hsv
    rw [List.foldl_cons]
    have hs := hsv o (List.mem_cons_self _ _)
    rw [SavedP, Option.isSome_iff_exists] at hs
    obtain ⟨v, hv⟩ := hs
    simp only [getOrNew_hit hv]
    rw [ih (init ++ [v]) (fun op hop => hsv op (List.mem_cons_of_mem _ hop))]
    simp [hv]

/-- Saved-table extension preserves the emitted block of a label whose own
literal and operand literals are already saved. -/
theorem emittedAt_stable (c : Circuit) (sv ext : List (Label × Lit)) (l : Label)
    (hl : SavedP sv l)
    (hops : ∀ g, c.get_gate l = some g → ∀ op ∈ g.operands, SavedP sv op) :
    emittedAt c (sv ++ ext) l = emittedAt c sv l := by
  cases hg : c.get_gate l with
  | none => simp [emittedAt, hg]
  | some g =>
    rw [SavedP, Option.isSome_iff_exists] at hl
    obtain ⟨v, hv⟩ := hl
    have hmap : g.operands.map (fun op => (lookupA (sv ++ ext) op).getD 0) =
        g.operands.map (fun op => (lookupA sv op).getD 0) := by
      apply List.map_congr_left
      intro op hop
      have hsp := hops g hg op hop
      rw [SavedP, Option.isSome_iff_exists] at hsp
      obtain ⟨w, hw⟩ := hsp
      rw [lookupA_append_left hw, hw]
    simp only [emittedAt, hg, lookupA_append_left hv, hv, hmap]

theorem StackOK.mono (c : Circuit) :
    ∀ (stack : List (Label × Bool)) (S T : Label → Prop),
      (∀ x, S x → T x) → StackOK c S stack → StackOK c T stack := by
  intro stack
  induction stack with
  | nil => intro S T _ _; trivial
  | cons p rest ih =>
    intro S T hst h
    obtain ⟨l, b⟩ := p
    obtain ⟨h1, h2⟩ := h
    exact ⟨fun hb g hg op hop => hst _ (h1 hb g hg op hop),
      ih _ _ (fun x hx => hx.imp (hst x) id) h2⟩

theorem stackOK_pushOps (c : Circuit) :
    ∀ (ops : List Label) (S : Label → Prop) (l : Label) (rest : List (Label × Bool)),
      (∀ g, c.get_gate l = some g → ∀ op ∈ g.operands, S op ∨ op ∈ ops) →
      StackOK c (fun x => S x ∨ x = l) rest →
      StackOK c S (ops.map (fun op => (op, false)) ++ (l, true) :: rest) := by
  intro ops
  induction ops with
  | nil =>
    intro S l rest hops hrest
    refine ⟨?_, hrest⟩
    intro _ g hg op hop
    rcases hops g hg op hop with h | h
    · exact h
    · cases h
  | cons o os ih =>
    intro S l rest hops hrest
    refine ⟨fun hb => Bool.noConfusion hb, ?_⟩
    apply ih
    · intro g hg op hop
      rcases hops g hg op hop with h | h
      · exact Or.inl (Or.inl h)
      · rcases List.mem_cons.mp h with h | h
        · exact Or.inl (Or.inr h)
        · exact Or.inr h
    · exact StackOK.mono c rest _ _
        (fun x hx => hx.imp (fun hsx => Or.inl hsx) id) hrest

/-- Closure plus a saved root pulls the whole reachable cone into the saved
table. -/
theorem reach_subset_closed (c : Circuit) (sv : List (Label × Lit))
    (hcl : ClosedC c sv) (r : Label) (hr : SavedP sv r) :
    ∀ l, Reach c r l → SavedP sv l := by
  intro l h
  induction h with
  | refl => exact hr
  | step _ hg hop ih => exact hcl _ ih _ hg _ hop

/-- Topological rank of a label: its position in the gate table. -/
def rank (c : Circuit) (l : Label) : Nat := (c.gates.map (·.1)).indexOf l

/-- Termination potential of a traversal stack: an unexpanded entry weighs
`4 ^ (rank + 1)`, an expanded one `4 ^ rank`. -/
def stackWeight (c : Circuit) (stack : List (Label × Bool)) : Nat :=
  (stack.map (fun p => if p.2 then 4 ^ rank c p.1 else 4 ^ (rank c p.1 + 1))).sum

/-- Facts `wfGates` certifies about every looked-up gate: the label matches,
the arity fits, and every operand is previously seen or strictly earlier in
the table. -/
theorem wfGates_lookup_facts :
    ∀ (gs : List (Label × Gate)) (seen : List Label),
      wfGates seen gs = true →
      ∀ (l : Label) (g : Gate), lookupA gs l = some g →
        g.label = l ∧ arityOK g = true ∧
        ∀ op ∈ g.operands,
          op ∈ seen ∨
            (op ∈ gs.map (·.1) ∧
              (gs.map (·.1)).indexOf op < (gs.map (·.1)).indexOf l) := by
  intro gs
  induction gs with
  | nil => intro seen _ l g h; cases h
  | cons p rest ih =>
    obtain ⟨k, kg⟩ := p
    intro seen hwf l g hlk
    rw [wfGates] at hwf
    simp only [Bool.and_eq_true, Bool.not_eq_true', beq_iff_eq, List.all_eq_true] at hwf
    obtain ⟨⟨⟨⟨hk, hlab⟩, har⟩, hops⟩, hrest⟩ := hwf
    rw [lookupA_cons] at hlk
    by_cases hkl : k = l
    · rw [if_pos hkl] at hlk
      cases hlk
      refine ⟨hkl ▸ hlab, har, ?_⟩
      intro op hop
      exact Or.inl (List.elem_iff.mp (hops op hop))
    · rw [if_neg hkl] at hlk
      obtain ⟨hl1, hl2, hl3⟩ := ih (k :: seen) hrest l g hlk
      refine ⟨hl1, hl2, ?_⟩
      intro op hop
      have hidxl : ((k, kg) :: rest).map (·.1) = k :: rest.map (·.1) := rfl
      rw [hidxl]
      have hlne : ((k :: rest.map (·.1)).indexOf l) = (rest.map (·.1)).indexOf l + 1 :=
        List.indexOf_cons_ne _ hkl
      rcases hl3 op hop with hmem | ⟨hmem, hlt⟩
      · rcases List.mem_cons.mp hmem with hok | hos
        · subst hok
          refine Or.inr ⟨List.mem_cons_self _ _, ?_⟩
          rw [List.indexOf_cons_self, hlne]
          omega
        · exact Or.inl hos
      · refine Or.inr ⟨List.mem_cons_of_mem _ hmem, ?_⟩
        by_cases hok : k = op
        · subst hok
          rw [List.indexOf_cons_self, hlne]
          omega
        · rw [List.indexOf_cons_ne _ hok, hlne]
          omega

/-- `wfGates` part of well-formedness. -/
theorem WF.wfGates_part {c : Circuit} (hwf : WF c) : wfGates [] c.gates = true := by
  rw [WF, WFb] at hwf
  simp only [Bool.and_eq_true] at hwf
  exact hwf.1.1

/-- Specialisation to a well-formed circuit: operands of every gate occur
strictly earlier in the table. -/
theorem WF.gate_facts {c : Circuit} (hwf : WF c) {l : Label} {g : Gate}
    (h : c.get_gate l = some g) :
    g.label = l ∧ arityOK g = true ∧
    ∀ op ∈ g.operands, op ∈ c.gates.map (·.1) ∧ rank c op < rank c l := by
  obtain ⟨h1, h2, h3⟩ := wfGates_lookup_facts c.gates [] hwf.wfGates_part l g h
  refine ⟨h1, h2, ?_⟩
  intro op hop
  rcases h3 op hop with hmem | ⟨hmem, hlt⟩
  · cases hmem
  · exact ⟨hmem, hlt⟩

theorem arityOK_len {g : Gate} (h : arityOK g = true) : g.operands.length ≤ 2 := by
  unfold arityOK at h
  cases htype : g.gate_type <;> rw [htype] at h <;>
    simp only [List.isEmpty_iff, beq_iff_eq] at h <;>
    first
      | (rw [h]; simp)
      | omega

theorem lits_fold_length :
    ∀ (ops : List Label) (acc : List Lit × TState),
      ((ops.foldl
        (fun (acc : List Lit × TState) op =>
          let r := getOrNew acc.2 op
          (acc.1 ++ [r.1], r.2)) acc).1).length = acc.1.length + ops.length := by
  intro ops
  induction ops with
  | nil => intro acc; simp
  | cons o os ih =>
    intro acc
    rw [List.foldl_cons, ih]
    simp
    omega

theorem emitClauses_isSome (g : Gate) (lits : List Lit) (top : Lit)
    (h : g.gate_type = GateType.NOT → lits ≠ []) :
    (emitClauses g lits top).isSome = true := by
  obtain ⟨lab, t, ops⟩ := g
  cases t <;> simp only [emitClauses] <;>
    first
      | rfl
      | (cases lits with
          | nil => exact absurd rfl (h rfl)
          | cons l0 rest => rfl)

/-- On a well-formed circuit the traversal loop cannot run out of fuel above
the stack potential, and never hits an error branch. -/
theorem processLoop_total (c : Circuit) (hwf : WF c) :
    ∀ (fuel : Nat) (st : TState) (stack : List (Label × Bool)),
      stackWeight c stack < fuel →
      (∀ p ∈ stack, p.1 ∈ c.gates.map (·.1)) →
      (processLoop c fuel st stack).isSome = true := by
  intro fuel
  induction fuel with
  | zero => intro st stack hw _; omega
  | succ fuel ih =>
    intro st stack hw hmem
    cases stack with
    | nil => rfl
    | cons p rest =>
      obtain ⟨l, expanded⟩ := p
      have hwrest : stackWeight c ((l, expanded) :: rest) =
          (if expanded then 4 ^ rank c l else 4 ^ (rank c l + 1)) +
            stackWeight c rest := by
        simp [stackWeight]
      have hpos : 0 < 4 ^ rank c l := Nat.pos_pow_of_pos _ (by norm_num)
      have hpos1 : 0 < 4 ^ (rank c l + 1) := Nat.pos_pow_of_pos _ (by norm_num)
      rw [processLoop]
      by_cases hsv : (lookupA st.saved l).isSome
      · rw [if_pos hsv]
        apply ih
        · rw [hwrest] at hw
          split at hw <;> omega
        · exact fun q hq => hmem q (List.mem_cons_of_mem _ hq)
      · rw [if_neg hsv]
        have hlmem : l ∈ c.gates.map (·.1) := hmem (l, expanded) (List.mem_cons_self _ _)
        have hg : (c.get_gate l).isSome := by
          rw [Circuit.get_gate, lookupA_isSome_iff_memKeys]
          exact hlmem
        rw [Option.isSome_iff_exists] at hg
        obtain ⟨g, hg⟩ := hg
        obtain ⟨hglab, hgar, hgops⟩ := hwf.gate_facts hg
        cases expanded with
        | false =>
          simp only [Bool.not_false, if_true, hg]
          apply ih
          · have hsplit :
                stackWeight c
                  (((g.operands.filter (fun op => (lookupA st.saved op).isNone)).map
                      (fun op => (op, false))) ++ (l, true) :: rest) =
                ((g.operands.filter (fun op => (lookupA st.saved op).isNone)).map
                    (fun op => 4 ^ (rank c op + 1))).sum +
                  (4 ^ rank c l + stackWeight c rest) := by
              simp [stackWeight, List.map_append, List.sum_append, List.map_map,
                Function.comp_def]
            rw [hsplit]
            have hsum :
                ((g.operands.filter (fun op => (lookupA st.saved op).isNone)).map
                    (fun op => 4 ^ (rank c op + 1))).sum ≤ 2 * 4 ^ rank c l := by
              have hb := List.sum_le_card_nsmul
                ((g.operands.filter (fun op => (lookupA st.saved op).isNone)).map
                  (fun op => 4 ^ (rank c op + 1))) (4 ^ rank c l) ?_
              · have hlen :
                    ((g.operands.filter (fun op => (lookupA st.saved op).isNone)).map
                      (fun op => 4 ^ (rank c op + 1))).length ≤ 2 := by
                  rw [List.length_map]
                  exact le_trans (List.length_filter_le _ _) (arityOK_len hgar)
                rw [smul_eq_mul] at hb
                calc _ ≤ _ := hb
                  _ ≤ 2 * 4 ^ rank c l :=
                    Nat.mul_le_mul_right _ hlen
              · intro x hx
                rw [List.mem_map] at hx
                obtain ⟨op, hop, hxeq⟩ := hx
                have hopmem : op ∈ g.operands := (List.mem_filter.mp hop).1
                have hlt := (hgops op hopmem).2
                subst hxeq
                exact Nat.pow_le_pow_right (by norm_num) (by omega)
            have hwc : stackWeight c ((l, false) :: rest) =
                4 ^ (rank c l + 1) + stackWeight c rest := by
              simp [stackWeight]
            rw [hwc] at hw
            have hps : 4 ^ (rank c l + 1) = 4 ^ rank c l * 4 := pow_succ 4 _
            omega
          · intro q hq
            rcases List.mem_append.mp hq with hq | hq
            · rw [List.mem_map] at hq
              obtain ⟨op, hop, hqe⟩ := hq
              have hopmem : op ∈ g.operands := (List.mem_filter.mp hop).1
              rw [← hqe]
              exact (hgops op hopmem).1
            · rcases List.mem_cons.mp hq with hq | hq
              · rw [hq]; exact hlmem
              · exact hmem q (List.mem_cons_of_mem _ hq)
        | true =>
          simp only [Bool.not_true, Bool.false_eq_true, if_false, hg]
          have hlen :
              ((g.operands.foldl
                (fun (acc : List Lit × TState) op =>
                  let r := getOrNew acc.2 op
                  (acc.1 ++ [r.1], r.2)) ([], st)).1).length = g.operands.length := by
            have := lits_fold_length g.operands ([], st)
            simpa using this
          have hemit :
              (emitClauses g
                ((g.operands.foldl
                  (fun (acc : List Lit × TState) op =>
                    let r := getOrNew acc.2 op
                    (acc.1 ++ [r.1], r.2)) ([], st)).1)
                ((getOrNew
                  (g.operands.foldl
                    (fun (acc : List Lit × TState) op =>
                      let r := getOrNew acc.2 op
                      (acc.1 ++ [r.1], r.2)) ([], st)).2 l).1)).isSome = true := by
            apply emitClauses_isSome
            intro hnot hnil
            obtain ⟨lab, t, ops⟩ := g
            simp only at hnot
            subst hnot
            simp only [arityOK, beq_iff_eq] at hgar
            rw [hnil] at hlen
            simp only [List.length_nil] at hlen
            omega
          rw [Option.isSome_iff_exists] at hemit
          obtain ⟨cls, hcls⟩ := hemit
          simp only [hcls]
          apply ih
          · have hwc : stackWeight c ((l, true) :: rest) =
                4 ^ rank c l + stackWeight c rest := by
              simp [stackWeight]
            rw [hwc] at hw
            omega
          · exact fun q hq => hmem q (List.mem_cons_of_mem _ hq)



/-- Concatenated emitted blocks of a list of labels. -/
def emittedBlocks (c : Circuit) (sv : List (Label × Lit)) : List Label → List Clause
  | [] => []
  | l :: ls => emittedAt c sv l ++ emittedBlocks c sv ls

theorem emittedBlocks_append (c : Circuit) (sv : List (Label × Lit))
    (xs ys : List Label) :
    emittedBlocks c sv (xs ++ ys) = emittedBlocks c sv xs ++ emittedBlocks c sv ys := by
  induction xs with
  | nil => rfl
  | cons x xs ih => simp [emittedBlocks, ih]

theorem SavedP.append {sv ext : List (Label × Lit)} {x : Label}
    (h : SavedP sv x) : SavedP (sv ++ ext) x := by
  rw [SavedP, Option.isSome_iff_exists] at h ⊢
  obtain ⟨v, hv⟩ := h
  exact ⟨v, lookupA_append_left hv ext⟩

theorem emittedBlocks_stable (c : Circuit) (sv ext : List (Label × Lit))
    (hcl : ClosedC c sv) :
    ∀ ls : List Label, (∀ l ∈ ls, SavedP sv l) →
      emittedBlocks c (sv ++ ext) ls = emittedBlocks c sv ls := by
  intro ls
  induction ls with
  | nil => intro _; rfl
  | cons l ls ih =>
    intro hls
    have hl := hls l (List.mem_cons_self _ _)
    rw [emittedBlocks, emittedBlocks,
      emittedAt_stable c sv ext l hl (fun g hg op hop => hcl l hl g hg op hop),
      ih (fun x hx => hls x (List.mem_cons_of_mem _ hx))]

/-- The main loop invariant of `_process_all`: a completing run extends the
saved table by exactly the newly encoded labels, keeps it duplicate-free and
operand-closed, appends exactly the emitted block of each new label, reaches
every new label from the root, and saves the root. -/
theorem processLoop_spec (c : Circuit) (root : Label) :
    ∀ (fuel : Nat) (st : TState) (stack : List (Label × Bool)) (out : TState),
      processLoop c fuel st stack = some out →
      (st.saved.map (·.1)).Nodup →
      ClosedC c st.saved →
      StackOK c (SavedP st.saved) stack →
      (∀ p ∈ stack, Reach c root p.1) →
      (root ∈ st.saved.map (·.1) ∨ root ∈ stack.map (·.1)) →
      ∃ suffix : List (Label × Lit),
        out.saved = st.saved ++ suffix ∧
        (out.saved.map (·.1)).Nodup ∧
        ClosedC c out.saved ∧
        out.cnf = st.cnf ++ emittedBlocks c out.saved (suffix.map (·.1)) ∧
        (∀ l ∈ suffix.map (·.1), Reach c root l ∧ (c.get_gate l).isSome = true) ∧
        root ∈ out.saved.map (·.1) := by
  intro fuel
  induction fuel with
  | zero => intro st stack out h; cases h
  | succ fuel ih =>
    intro st stack out h hnd hcl hstack hreach hroot
    cases stack with
    | nil =>
      rw [processLoop] at h
      cases h
      refine ⟨[], by simp, hnd, hcl, by simp [emittedBlocks], by simp, ?_⟩
      rcases hroot with hr | hr
      · exact hr
      · cases hr
    | cons p rest =>
      obtain ⟨l, expanded⟩ := p
      obtain ⟨h1, h2⟩ := hstack
      rw [processLoop] at h
      by_cases hsv : (lookupA st.saved l).isSome
      · rw [if_pos hsv] at h
        have hlk : l ∈ st.saved.map (·.1) := (lookupA_isSome_iff_memKeys _ _).mp hsv
        apply ih st rest out h hnd hcl
        · exact StackOK.mono c rest _ _
            (fun x hx => by
              rcases hx with hx | hx
              · exact hx
              · rw [hx]; exact hsv) h2
        · exact fun q hq => hreach q (List.mem_cons_of_mem _ hq)
        · rcases hroot with hr | hr
          · exact Or.inl hr
          · rcases List.mem_cons.mp hr with hr | hr
            · rw [hr]; exact Or.inl hlk
            · exact Or.inr hr
      · rw [if_neg hsv] at h
        have hnone : lookupA st.saved l = none := by
          rw [← Option.not_isSome_iff_eq_none]; exact hsv
        cases expanded with
        | false =>
          simp only [Bool.not_false, if_true] at h
          cases hgq : c.get_gate l with
          | none => rw [hgq] at h; cases h
          | some g =>
            rw [hgq] at h
            simp only at h
            apply ih st _ out h hnd hcl
            · apply stackOK_pushOps
              · intro g' hg' op hop
                rw [hgq] at hg'
                cases hg'
                by_cases hops : (lookupA st.saved op).isSome
                · exact Or.inl hops
                · refine Or.inr (List.mem_filter.mpr ⟨hop, ?_⟩)
                  rw [Option.isNone_iff_eq_none, ← Option.not_isSome_iff_eq_none]
                  exact hops
              · exact h2
            · intro q hq
              rcases List.mem_append.mp hq with hq | hq
              · rw [List.mem_map] at hq
                obtain ⟨op, hop, hqe⟩ := hq
                rw [← hqe]
                exact Reach.step (hreach (l, false) (List.mem_cons_self _ _)) hgq
                  (List.mem_filter.mp hop).1
              · rcases List.mem_cons.mp hq with hq | hq
                · rw [hq]
                  exact hreach (l, false) (List.mem_cons_self _ _)
                · exact hreach q (List.mem_cons_of_mem _ hq)
            · rcases hroot with hr | hr
              · exact Or.inl hr
              · refine Or.inr ?_
                rw [List.map_append, List.mem_append]
                rcases List.mem_cons.mp hr with hr | hr
                · exact Or.inr (by rw [List.map_cons, hr]; exact List.mem_cons_self _ _)
                · exact Or.inr (by
                    rw [List.map_cons]
                    exact List.mem_cons_of_mem _ hr)
        | true =>
          simp only [Bool.not_true, Bool.false_eq_true, if_false] at h
          cases hgq : c.get_gate l with
          | none => rw [hgq] at h; cases h
          | some g =>
            rw [hgq] at h
            simp only at h
            have hops_saved : ∀ op ∈ g.operands, SavedP st.saved op := h1 rfl g hgq
            rw [lits_fold st g.operands [] hops_saved] at h
            simp only [List.nil_append] at h
            rw [getOrNew_miss hnone] at h
            simp only at h
            cases hce : emitClauses g
                (g.operands.map (fun op => (lookupA st.saved op).getD 0))
                (st.next + 1) with
            | none => rw [hce] at h; cases h
            | some cls =>
              rw [hce] at h
              simp only at h
              set st1 : TState :=
                { saved := st.saved ++ [(l, st.next + 1)], next := st.next + 1,
                  cnf := st.cnf ++ cls } with hst1
              have hsv1 : lookupA st1.saved l = some (st.next + 1) := by
                rw [hst1]
                simp only
                rw [lookupA_append_right hnone, lookupA_cons, if_pos rfl]
              have hlift : ∀ x, SavedP st.saved x → SavedP st1.saved x := by
                intro x hx
                rw [hst1]
                exact hx.append
              have hnd1 : (st1.saved.map (·.1)).Nodup := by
                rw [hst1]
                exact nodupKeys_append_one _ hnd hnone
              have hcl1 : ClosedC c st1.saved := by
                intro x hx g' hg' op hop
                by_cases hxo : (lookupA st.saved x).isSome
                · exact hlift op (hcl x hxo g' hg' op hop)
                · have hxl : x = l := by
                    rw [SavedP, hst1] at hx
                    simp only at hx
                    rw [lookupA_append_right (by
                      rw [← Option.not_isSome_iff_eq_none]; exact hxo),
                      lookupA_cons] at hx
                    by_cases hlx : l = x
                    · exact hlx.symm
                    · rw [if_neg hlx] at hx
                      cases hx
                  subst hxl
                  rw [hgq] at hg'
                  cases hg'
                  exact hlift op (hops_saved op hop)
              have hstack1 : StackOK c (SavedP st1.saved) rest := by
                apply StackOK.mono c rest _ _ ?_ h2
                intro x hx
                rcases hx with hx | hx
                · exact hlift x hx
                · rw [hx, SavedP, hsv1]
                  rfl
              obtain ⟨sfx, hs1, hs2, hs3, hs4, hs5, hs6⟩ :=
                ih st1 rest out h hnd1 hcl1 hstack1
                  (fun q hq => hreach q (List.mem_cons_of_mem _ hq))
                  (by
                    rcases hroot with hr | hr
                    · exact Or.inl (by
                        rw [hst1]
                        simp only [List.map_append, List.mem_append]
                        exact Or.inl hr)
                    · rcases List.mem_cons.mp hr with hr | hr
                      · refine Or.inl ?_
                        rw [hr, ← lookupA_isSome_iff_memKeys, hsv1]
                        rfl
                      · exact Or.inr hr)
              refine ⟨(l, st.next + 1) :: sfx, ?_, hs2, hs3, ?_, ?_, hs6⟩
              · rw [hs1, hst1]
                simp
              · have hcls_at : emittedAt c out.saved l = cls := by
                  have hmap : g.operands.map
                      (fun op => (lookupA st1.saved op).getD 0) =
                      g.operands.map (fun op => (lookupA st.saved op).getD 0) := by
                    apply List.map_congr_left
                    intro op hop
                    have hsp := hops_saved op hop
                    rw [SavedP, Option.isSome_iff_exists] at hsp
                    obtain ⟨w, hw⟩ := hsp
                    rw [hst1]
                    simp only
                    rw [lookupA_append_left hw, hw]
                  have hstep : emittedAt c st1.saved l = cls := by
                    simp only [emittedAt, hgq, hmap, hsv1, hce, Option.getD_some]
                  have hsub : emittedAt c out.saved l = emittedAt c st1.saved l := by
                    rw [hs1]
                    exact emittedAt_stable c st1.saved sfx l
                      (by rw [SavedP, hsv1]; rfl)
                      (fun g' hg' op hop => by
                        rw [hgq] at hg'
                        cases hg'
                        exact hlift op (hops_saved op hop))
                  rw [hsub, hstep]
                rw [List.map_cons, emittedBlocks, hcls_at, hs4, hst1]
                simp
              · intro x hx
                rcases List.mem_cons.mp hx with hx | hx
                · subst hx
                  refine ⟨hreach (x, true) (List.mem_cons_self _ _), ?_⟩
                  rw [hgq]
                  rfl
                · exact hs5 x hx


/-- `_process_all` on a well-formed circuit: completes, returns the root's
literal, and extends the state exactly by the reachable unencoded cone. -/
theorem processAll_spec (c : Circuit) (hwf : WF c) (st : TState) (root : Label)
    (hnd : (st.saved.map (·.1)).Nodup) (hcl : ClosedC c st.saved)
    (hmem : root ∈ c.gates.map (·.1)) :
    ∃ (out : TState) (suffix : List (Label × Lit)),
      processAll c st root = some ((lookupA out.saved root).getD 0, out) ∧
      out.saved = st.saved ++ suffix ∧
      (out.saved.map (·.1)).Nodup ∧
      ClosedC c out.saved ∧
      out.cnf = st.cnf ++ emittedBlocks c out.saved (suffix.map (·.1)) ∧
      (∀ l ∈ suffix.map (·.1), Reach c root l ∧ (c.get_gate l).isSome = true) ∧
      root ∈ out.saved.map (·.1) := by
  have hrank : rank c root < c.gates.length := by
    rw [rank]
    have h := List.indexOf_lt_length.mpr hmem
    simpa using h
  have hwt : stackWeight c [(root, false)] < tseytinFuel c := by
    have hle : 4 ^ (rank c root + 1) ≤ 4 ^ (c.gates.length + 1) :=
      Nat.pow_le_pow_right (by norm_num) (by omega)
    calc stackWeight c [(root, false)] = 4 ^ (rank c root + 1) := by
          simp [stackWeight]
      _ ≤ 4 ^ (c.gates.length + 1) := hle
      _ < tseytinFuel c := by rw [tseytinFuel]; omega
  have htot := processLoop_total c hwf (tseytinFuel c) st [(root, false)] hwt
    (by
      intro p hp
      rcases List.mem_cons.mp hp with hp | hp
      · rw [hp]; exact hmem
      · cases hp)
  rw [Option.isSome_iff_exists] at htot
  obtain ⟨out, hout⟩ := htot
  obtain ⟨sfx, hs1, hs2, hs3, hs4, hs5, hs6⟩ :=
    processLoop_spec c root (tseytinFuel c) st [(root, false)] out hout hnd hcl
      ⟨fun hb => Bool.noConfusion hb, trivial⟩
      (by
        intro p hp
        rcases List.mem_cons.mp hp with hp | hp
        · rw [hp]; exact Reach.refl root
        · cases hp)
      (Or.inr (by simp))
  have hsvroot : (lookupA out.saved root).isSome = true :=
    (lookupA_isSome_iff_memKeys _ _).mpr hs6
  rw [Option.isSome_iff_exists] at hsvroot
  obtain ⟨v, hv⟩ := hsvroot
  refine ⟨out, sfx, ?_, hs1, hs2, hs3, hs4, hs5, hs6⟩
  rw [processAll]
  simp only [hout, getOrNew_hit hv, hv, Option.getD_some, Option.bind_eq_bind,
    Option.some_bind, Option.pure_def]

/-- The conquer-phase output fold of `tseytin_transformation`: encodes every
root's cone and appends one unit clause per root. -/
theorem outputsFold_spec (c : Circuit) (hwf : WF c) :
    ∀ (roots : List Label) (st : TState),
      (∀ r ∈ roots, r ∈ c.gates.map (·.1)) →
      (st.saved.map (·.1)).Nodup →
      ClosedC c st.saved →
      ∃ (stF : TState) (suffix : List (Label × Lit)),
        roots.foldlM (fun st root => do
            let r ← processAll c st root
            return { r.2 with cnf := r.2.cnf ++ [[r.1]] }) st = some stF ∧
        stF.saved = st.saved ++ suffix ∧
        (stF.saved.map (·.1)).Nodup ∧
        ClosedC c stF.saved ∧
        clauseMS stF.cnf = clauseMS st.cnf +
          clauseMS (emittedBlocks c stF.saved (suffix.map (·.1))) +
          ↑(roots.map (fun r => ({(lookupA stF.saved r).getD 0} : Multiset Lit))) ∧
        (∀ l ∈ suffix.map (·.1),
          (∃ r ∈ roots, Reach c r l) ∧ (c.get_gate l).isSome = true) ∧
        (∀ r ∈ roots, r ∈ stF.saved.map (·.1)) := by
  intro roots
  induction roots with
  | nil =>
    intro st _ hnd hcl
    refine ⟨st, [], rfl, by simp, hnd, hcl, ?_, by simp, by simp⟩
    simp [emittedBlocks, clauseMS]
  | cons root rest ih =>
    intro st hmem hnd hcl
    obtain ⟨out, sfx1, hpa, ho1, ho2, ho3, ho4, ho5, ho6⟩ :=
      processAll_spec c hwf st root hnd hcl (hmem root (List.mem_cons_self _ _))
    set st2 : TState :=
      { out with cnf := out.cnf ++ [[(lookupA out.saved root).getD 0]] } with hst2
    have hnd2 : (st2.saved.map (·.1)).Nodup := ho2
    have hcl2 : ClosedC c st2.saved := ho3
    obtain ⟨stF, sfx2, hfold, hf1, hf2, hf3, hf4, hf5, hf6⟩ :=
      ih st2 (fun r hr => hmem r (List.mem_cons_of_mem _ hr)) hnd2 hcl2
    have hsavedF : stF.saved = st.saved ++ (sfx1 ++ sfx2) := by
      rw [hf1, hst2]
      simp only
      rw [ho1, List.append_assoc]
    refine ⟨stF, sfx1 ++ sfx2, ?_, hsavedF, hf2, hf3, ?_, ?_, ?_⟩
    · rw [List.foldlM_cons]
      simp only [hpa, Option.bind_eq_bind, Option.some_bind, bind, Option.bind]
      exact hfold
    · have hsfx1_saved : ∀ l ∈ sfx1.map (·.1), SavedP out.saved l := by
        intro l hl
        rw [SavedP, lookupA_isSome_iff_memKeys, ho1, List.map_append,
          List.mem_append]
        exact Or.inr hl
      have hstable : emittedBlocks c stF.saved (sfx1.map (·.1)) =
          emittedBlocks c out.saved (sfx1.map (·.1)) := by
        have heq : stF.saved = out.saved ++ sfx2 := by
          rw [hf1, hst2]
        rw [heq]
        exact emittedBlocks_stable c out.saved sfx2 ho3 _ hsfx1_saved
      have hunit_root : (lookupA stF.saved root).getD 0 =
          (lookupA out.saved root).getD 0 := by
        have hsv : (lookupA out.saved root).isSome = true :=
          (lookupA_isSome_iff_memKeys _ _).mpr ho6
        rw [Option.isSome_iff_exists] at hsv
        obtain ⟨v, hv⟩ := hsv
        have heq : stF.saved = out.saved ++ sfx2 := by
          rw [hf1, hst2]
        rw [heq, lookupA_append_left hv, hv]
      rw [hf4, hst2]
      simp only
      rw [clauseMS_append, ho4, clauseMS_append, List.map_append,
        emittedBlocks_append, clauseMS_append, hstable, List.map_cons,
        hunit_root]
      have hcoe : (↑(({(lookupA out.saved root).getD 0} : Multiset Lit) ::
          rest.map (fun r => ({(lookupA stF.saved r).getD 0} : Multiset Lit))) :
            Multiset (Multiset Lit)) =
          ({(lookupA out.saved root).getD 0} : Multiset Lit) ::ₘ
          ↑(rest.map (fun r => ({(lookupA stF.saved r).getD 0} : Multiset Lit))) := by
        rfl
      rw [hcoe]
      have hone : clauseMS [[(lookupA out.saved root).getD 0]] =
          {({(lookupA out.saved root).getD 0} : Multiset Lit)} := by
        rfl
      rw [hone]
      have habel : ∀ (a b u e f : Multiset (Multiset Lit)),
          a + b + u + e + f = a + (b + e) + (u + f) := by
        intro a b u e f
        abel
      have hcons : (({(lookupA out.saved root).getD 0} : Multiset Lit)) ::ₘ
          (↑(rest.map (fun r => ({(lookupA stF.saved r).getD 0} : Multiset Lit))) :
            Multiset (Multiset Lit)) =
          ({({(lookupA out.saved root).getD 0} : Multiset Lit)} :
            Multiset (Multiset Lit)) +
          ↑(rest.map (fun r => ({(lookupA stF.saved r).getD 0} : Multiset Lit))) := by
        rw [Multiset.singleton_add]
      rw [hcons]
      exact habel _ _ _ _ _
    · intro l hl
      rw [List.map_append, List.mem_append] at hl
      rcases hl with hl | hl
      · exact ⟨⟨root, List.mem_cons_self _ _, (ho5 l hl).1⟩, (ho5 l hl).2⟩
      · obtain ⟨⟨r, hr, hreach⟩, hg⟩ := hf5 l hl
        exact ⟨⟨r, List.mem_cons_of_mem _ hr, hreach⟩, hg⟩
    · intro r hr
      rcases List.mem_cons.mp hr with hr | hr
      · rw [hr]
        have heq : stF.saved = out.saved ++ sfx2 := by
          rw [hf1, hst2]
        rw [heq, List.map_append, List.mem_append]
        exact Or.inl ho6
      · exact hf6 r hr


/-- Seeding the inputs allocates their literals and nothing else: the clause
list is untouched, keys stay duplicate-free, and exactly the input labels are
added. -/
theorem seedFold_spec :
    ∀ (ls : List Label) (st : TState),
      (st.saved.map (·.1)).Nodup →
      (ls.foldl (fun st l => (getOrNew st l).2) st).cnf = st.cnf ∧
      ((ls.foldl (fun st l => (getOrNew st l).2) st).saved.map (·.1)).Nodup ∧
      (∀ x, x ∈ (ls.foldl (fun st l => (getOrNew st l).2) st).saved.map (·.1) ↔
        x ∈ st.saved.map (·.1) ∨ x ∈ ls) := by
  intro ls
  induction ls with
  | nil =>
    intro st hnd
    exact ⟨rfl, hnd, fun x => by simp⟩
  | cons l ls ih =>
    intro st hnd
    rw [List.foldl_cons]
    cases hlk : lookupA st.saved l with
    | some v =>
      rw [getOrNew_hit hlk]
      obtain ⟨h1, h2, h3⟩ := ih st hnd
      refine ⟨h1, h2, fun x => ?_⟩
      rw [h3 x]
      constructor
      · rintro (hx | hx)
        · exact Or.inl hx
        · exact Or.inr (List.mem_cons_of_mem _ hx)
      · rintro (hx | hx)
        · exact Or.inl hx
        · rcases List.mem_cons.mp hx with hx | hx
          · subst hx
            refine Or.inl ((lookupA_isSome_iff_memKeys _ _).mp ?_)
            rw [hlk]
            rfl
          · exact Or.inr hx
    | none =>
      rw [getOrNew_miss hlk]
      have hnd1 : (((st.saved ++ [(l, st.next + 1)]).map (·.1)).Nodup) :=
        nodupKeys_append_one _ hnd hlk
      obtain ⟨h1, h2, h3⟩ := ih
        { st with saved := st.saved ++ [(l, st.next + 1)], next := st.next + 1 } hnd1
      refine ⟨h1, h2, fun x => ?_⟩
      rw [h3 x]
      simp only [List.map_append, List.mem_append, List.map_cons, List.map_nil,
        List.mem_singleton, List.mem_cons, List.not_mem_nil, or_false]
      tauto

/-- Every input label of a well-formed circuit is an INPUT gate. -/
theorem WF.input_gate {c : Circuit} (hwf : WF c) {l : Label} (hl : l ∈ c.inputs) :
    ∃ g, c.get_gate l = some g ∧ g.gate_type = GateType.INPUT := by
  rw [WF, WFb] at hwf
  simp only [Bool.and_eq_true, List.all_eq_true] at hwf
  have hin := hwf.1.2 l hl
  cases hq : c.get_gate l with
  | none => rw [hq] at hin; cases hin
  | some g =>
    rw [hq] at hin
    simp only [beq_iff_eq] at hin
    exact ⟨g, rfl, hin⟩

/-- Every output label of a well-formed circuit names a gate. -/
theorem WF.output_mem {c : Circuit} (hwf : WF c) {r : Label} (hr : r ∈ c.outputs) :
    r ∈ c.gates.map (·.1) := by
  rw [WF, WFb] at hwf
  simp only [Bool.and_eq_true, List.all_eq_true] at hwf
  have := hwf.2 r hr
  rw [Circuit.get_gate] at this
  exact (lookupA_isSome_iff_memKeys _ _).mp this

/-- The emitted block of any gate equals the specified block, clauses compared
as literal multisets. -/
theorem emitted_spec_conv (c : Circuit) (hwf : WF c) (sv : List (Label × Lit))
    (l : Label) (hg : (c.get_gate l).isSome = true) :
    clauseMS (emittedAt c sv l) = ↑(specBlock c sv l) := by
  rw [Option.isSome_iff_exists] at hg
  obtain ⟨g, hg⟩ := hg
  obtain ⟨hlab, har, _⟩ := hwf.gate_facts hg
  obtain ⟨glab, t, ops⟩ := g
  cases t with
  | INPUT =>
    simp only [arityOK, List.isEmpty_iff] at har
    subst har
    simp [emittedAt, hg, specBlock, specClauses, emitClauses, clauseMS]
  | NOT =>
    simp only [arityOK, beq_iff_eq] at har
    obtain ⟨a, ha⟩ := List.length_eq_one.mp har
    subst ha
    simp only [emittedAt, hg, specBlock, specClauses, emitClauses, clauseMS,
      List.map_cons, List.map_nil, Option.getD_some]
    rfl
  | AND =>
    simp only [arityOK, beq_iff_eq] at har
    obtain ⟨a, b, hab⟩ := List.length_eq_two.mp har
    subst hab
    have he : emittedAt c sv l =
        [[(lookupA sv a).getD 0, -((lookupA sv l).getD 0)],
         [(lookupA sv b).getD 0, -((lookupA sv l).getD 0)],
         [(lookupA sv l).getD 0, -((lookupA sv a).getD 0),
           -((lookupA sv b).getD 0)]] := by
      simp only [emittedAt, hg, emitClauses, List.map_cons, List.map_nil,
        Option.getD_some, List.nil_append, List.cons_append]
    have hs : specBlock c sv l =
        [{(lookupA sv a).getD 0, -((lookupA sv l).getD 0)},
         {(lookupA sv b).getD 0, -((lookupA sv l).getD 0)},
         {-((lookupA sv a).getD 0), -((lookupA sv b).getD 0),
           (lookupA sv l).getD 0}] := by
      simp only [specBlock, hg, specClauses]
    have h3 : (↑[(lookupA sv l).getD 0, -((lookupA sv a).getD 0),
        -((lookupA sv b).getD 0)] : Multiset Lit) =
        ({-((lookupA sv a).getD 0), -((lookupA sv b).getD 0),
          (lookupA sv l).getD 0} : Multiset Lit) := by
      calc ((lookupA sv l).getD 0) ::ₘ (-((lookupA sv a).getD 0)) ::ₘ
            ((-((lookupA sv b).getD 0)) ::ₘ 0) =
          (-((lookupA sv a).getD 0)) ::ₘ ((lookupA sv l).getD 0) ::ₘ
            ((-((lookupA sv b).getD 0)) ::ₘ 0) := Multiset.cons_swap _ _ _
        _ = (-((lookupA sv a).getD 0)) ::ₘ ((-((lookupA sv b).getD 0)) ::ₘ
            ((lookupA sv l).getD 0) ::ₘ 0) := by
          exact congrArg _ (Multiset.cons_swap _ _ _)
    rw [he, hs, clauseMS]
    simp only [List.map_cons, List.map_nil]
    refine congrArg _ ?_
    rw [h3]
    rfl
  | ALWAYS_TRUE =>
    simp only [arityOK, List.isEmpty_iff] at har
    subst har
    simp only [emittedAt, hg, specBlock, specClauses, emitClauses, clauseMS,
      List.map_cons, List.map_nil, Option.getD_some]
    rfl
  | ALWAYS_FALSE =>
    simp only [arityOK, List.isEmpty_iff] at har
    subst har
    simp only [emittedAt, hg, specBlock, specClauses, emitClauses, clauseMS,
      List.map_cons, List.map_nil, Option.getD_some]
    rfl

/-- Block-list version of `emitted_spec_conv`. -/
theorem blocks_conv (c : Circuit) (hwf : WF c) (sv : List (Label × Lit)) :
    ∀ ls : List Label, (∀ l ∈ ls, (c.get_gate l).isSome = true) →
      clauseMS (emittedBlocks c sv ls) = ↑((ls.map (specBlock c sv)).flatten) := by
  intro ls
  induction ls with
  | nil => intro _; rfl
  | cons l ls ih =>
    intro hls
    rw [emittedBlocks, clauseMS_append,
      emitted_spec_conv c hwf sv l (hls l (List.mem_cons_self _ _)),
      ih (fun x hx => hls x (List.mem_cons_of_mem _ hx)),
      List.map_cons, List.flatten_cons]
    simp


/-- **C1.** For every well-formed AIG circuit, `tseytin_transformation`
completes and emits exactly the specified clauses per gate (none for INPUT,
`[t]` for ALWAYS_TRUE, `[-t]` for ALWAYS_FALSE, `[a, t]` and `[-a, -t]` for
NOT(a), `[a, -t]`, `[b, -t]`, `[-a, -b, t]` for AND(a, b), clauses compared as
literal multisets), encodes each gate reachable from an output root exactly
once — the encoded labels `ord` are duplicate-free and are precisely the
reachable non-input labels, even when the DAG shares sub-expressions — and
appends a unit clause `[v(r)]` for every output root `r`. -/
theorem c1_tseytin_exact (c : Circuit) (hwf : WF c) :
    ∃ (res : Cnf) (ord : List Label),
      tseytin_transformation c = some res ∧
      ord.Nodup ∧
      (∀ l, l ∈ ord ↔ (ReachesOut c l ∧ l ∉ c.inputs)) ∧
      clauseMS res.cnf =
        ↑((ord.map (specBlock c res.var_map)).flatten) +
          ↑(c.outputs.map (fun r =>
            ({(lookupA res.var_map r).getD 0} : Multiset Lit))) := by
  obtain ⟨hcnf0, hnd0, hmem0⟩ := seedFold_spec c.inputs ⟨[], 0, []⟩ (by simp)
  have hmem0' : ∀ x, x ∈ (c.inputs.foldl (fun st l => (getOrNew st l).2)
      (⟨[], 0, []⟩ : TState)).saved.map (·.1) ↔ x ∈ c.inputs := by
    intro x
    rw [hmem0 x]
    simp
  have hcl0 : ClosedC c (c.inputs.foldl (fun st l => (getOrNew st l).2)
      (⟨[], 0, []⟩ : TState)).saved := by
    intro l hl g hgg op hop
    have hlin : l ∈ c.inputs := (hmem0' l).mp ((lookupA_isSome_iff_memKeys _ _).mp hl)
    obtain ⟨g', hg', ht⟩ := hwf.input_gate hlin
    rw [hg'] at hgg
    cases hgg
    obtain ⟨_, har, _⟩ := hwf.gate_facts hg'
    simp only [arityOK, ht, List.isEmpty_iff] at har
    rw [har] at hop
    cases hop
  obtain ⟨stF, suffix, hfold, hf1, hf2, hf3, hf4, hf5, hf6⟩ :=
    outputsFold_spec c hwf c.outputs _ (fun r hr => hwf.output_mem hr) hnd0 hcl0
  have hsplit : stF.saved.map (·.1) =
      ((c.inputs.foldl (fun st l => (getOrNew st l).2)
        (⟨[], 0, []⟩ : TState)).saved.map (·.1)) ++ suffix.map (·.1) := by
    rw [hf1, List.map_append]
  have hnd2 : (((c.inputs.foldl (fun st l => (getOrNew st l).2)
      (⟨[], 0, []⟩ : TState)).saved.map (·.1)) ++ suffix.map (·.1)).Nodup := by
    rw [← hsplit]
    exact hf2
  refine ⟨⟨stF.cnf, stF.saved⟩, suffix.map (·.1), ?_, ?_, ?_, ?_⟩
  · simp only [Option.bind_eq_bind, Option.some_bind, Option.pure_def] at hfold
    simp only [tseytin_transformation, Option.bind_eq_bind, Option.some_bind,
      Option.pure_def]
    rw [hfold]
    rfl
  · exact (List.nodup_append.mp hnd2).2.1
  · intro l
    constructor
    · intro hl
      obtain ⟨⟨r, hr, hre⟩, _⟩ := hf5 l hl
      refine ⟨⟨r, hr, hre⟩, ?_⟩
      intro hin
      exact (List.nodup_append.mp hnd2).2.2 ((hmem0' l).mpr hin) hl
    · rintro ⟨⟨r, hr, hre⟩, hnotin⟩
      have hrsaved : SavedP stF.saved r :=
        (lookupA_isSome_iff_memKeys _ _).mpr (hf6 r hr)
      have hlsaved := reach_subset_closed c stF.saved hf3 r hrsaved l hre
      have hlk : l ∈ stF.saved.map (·.1) :=
        (lookupA_isSome_iff_memKeys _ _).mp hlsaved
      rw [hsplit, List.mem_append] at hlk
      rcases hlk with hlk | hlk
      · exact absurd ((hmem0' l).mp hlk) hnotin
      · exact hlk
  · show clauseMS stF.cnf = _
    rw [hf4, blocks_conv c hwf stF.saved (suffix.map (·.1)) (fun l hl => (hf5 l hl).2)]
    have hz : clauseMS (c.inputs.foldl (fun st l => (getOrNew st l).2)
        (⟨[], 0, []⟩ : TState)).cnf = 0 := by
      rw [hcnf0]
      rfl
    rw [hz, zero_add]

/-- A two-input AND circuit used as the C1 witness input. -/
def c1Circuit : Circuit :=
  ⟨[("x", ⟨"x", GateType.INPUT, []⟩), ("y", ⟨"y", GateType.INPUT, []⟩),
    ("g", ⟨"g", GateType.AND, ["x", "y"]⟩)],
   ["x", "y"], ["g"], [("x", ["g"]), ("y", ["g"]), ("g", [])]⟩

/-- Witness for C1 at the concrete circuit `c1Circuit` (the well-formedness
hypothesis is discharged by `decide`). -/
theorem c1_witness :
    ∃ (res : Cnf) (ord : List Label),
      tseytin_transformation c1Circuit = some res ∧
      ord.Nodup ∧
      (∀ l, l ∈ ord ↔ (ReachesOut c1Circuit l ∧ l ∉ c1Circuit.inputs)) ∧
      clauseMS res.cnf =
        ↑((ord.map (specBlock c1Circuit res.var_map)).flatten) +
          ↑(c1Circuit.outputs.map (fun r =>
            ({(lookupA res.var_map r).getD 0} : Multiset Lit))) :=
  c1_tseytin_exact c1Circuit ((by decide : WFb c1Circuit = true) : WF c1Circuit)

end AigCube
